import Mathlib

/-!
Verification of the gg-git client core: the commit object codec
(`src/object/commit.go`) and the pack-protocol v1 fetch negotiator
(`src/packfile/client/fetch_v1.go`), shallowly embedded over byte lists
(`List Nat`, each byte < 256).
-/

set_option maxHeartbeats 1000000

namespace GG

/-- Bytes of an ASCII string literal. -/
def strB (s : String) : List Nat := s.data.map Char.toNat

/-- Index of the first occurrence of a byte, as in Go bytes.IndexByte. -/
def idxOf (b : Nat) : List Nat → Option Nat
  | [] => none
  | x :: xs => if x = b then some 0 else (idxOf b xs).map (· + 1)

/-- Index of the last occurrence of a byte, as in Go bytes.LastIndexByte. -/
def lastIdxOf (b : Nat) : List Nat → Option Nat
  | [] => none
  | x :: xs =>
    match lastIdxOf b xs with
    | some i => some (i + 1)
    | none => if x = b then some 0 else none

/-- Embedding of commit.go consumeString: strips the literal from the front of
src, returning the tail, or none when src does not start with it. -/
def consumeString (src pre : List Nat) : Option (List Nat) :=
  if src.take pre.length = pre then some (src.drop pre.length) else none

/-- Value of one hex digit byte, as accepted by Go hex.Decode
(digits, lowercase and uppercase letters). -/
def hexDigitVal (c : Nat) : Option Nat :=
  if 48 ≤ c ∧ c ≤ 57 then some (c - 48)
  else if 97 ≤ c ∧ c ≤ 102 then some (c - 87)
  else if 65 ≤ c ∧ c ≤ 70 then some (c - 55)
  else none

/-- Lowercase hex digit for a value below 16, as printed by Go %x. -/
def hexDig (x : Nat) : Nat := if x < 10 then 48 + x else 87 + x

/-- Lowercase hex encoding of a byte list, as printed by Go %x. -/
def hexEncode (l : List Nat) : List Nat :=
  l.flatMap (fun b => [hexDig (b / 16), hexDig (b % 16)])

/-- Pairwise hex decoding as performed by Go hex.Decode: decodes byte pairs
until a bad digit or an odd trailing digit, returning the bytes written so far
and whether the whole input decoded. -/
def hexDecodeAcc : List Nat → (List Nat × Bool)
  | [] => ([], true)
  | [_] => ([], false)
  | a :: b :: rest =>
    match hexDigitVal a, hexDigitVal b with
    | some x, some y =>
      let r := hexDecodeAcc rest
      ((16 * x + y) :: r.1, r.2)
    | _, _ => ([], false)

/-- Embedding of commit.go consumeHex decoding into a fresh zeroed n-byte
destination: returns the destination contents (partially written on error,
exactly as Go hex.Decode leaves them) and the tail on success. -/
def consumeHex (n : Nat) (src : List Nat) : (List Nat × Option (List Nat)) :=
  if src.length < 2 * n then (List.replicate n 0, none)
  else
    match hexDecodeAcc (src.take (2 * n)) with
    | (bs, true) => (bs, some (src.drop (2 * n)))
    | (bs, false) => (bs ++ List.replicate (n - bs.length) 0, none)

/-- Decimal digits of a natural number, most significant first; the fuel
argument only bounds the recursion depth (any fuel above the value works). -/
def natToDecF : Nat → Nat → List Nat
  | 0, _ => []
  | fuel + 1, n => if n < 10 then [48 + n] else natToDecF fuel (n / 10) ++ [48 + n % 10]

/-- Decimal digits of a natural number, as printed by Go %d. -/
def natToDec (n : Nat) : List Nat := natToDecF (n + 1) n

/-- Decimal rendering of an integer, as printed by Go %d on int64. -/
def intToDec (n : Int) : List Nat :=
  if n < 0 then 45 :: natToDec n.natAbs else natToDec n.toNat

/-- Digit-and-range phase of Go strconv.ParseInt(s, 10, 64) after the sign has
been consumed: nonempty decimal digits, 64-bit range check. -/
def parseInt64Digits (neg : Bool) (ds : List Nat) : Option Int :=
  if ds = [] then none
  else if ds.all (fun d => decide (48 ≤ d ∧ d ≤ 57)) then
    let v : Nat := ds.foldl (fun a d => a * 10 + (d - 48)) 0
    if neg then (if v ≤ 2 ^ 63 then some (-(v : Int)) else none)
    else (if v ≤ 2 ^ 63 - 1 then some (v : Int) else none)
  else none

/-- Embedding of Go strconv.ParseInt(s, 10, 64): optional sign, decimal
digits, 64-bit range check. -/
def parseInt64 (s : List Nat) : Option Int :=
  match s with
  | [] => none
  | c :: rest =>
    if c = 45 then parseInt64Digits true rest
    else if c = 43 then parseInt64Digits false rest
    else parseInt64Digits false (c :: rest)

/-- Embedding of commit.go parseTZOffset: a 5-byte ±hhmm offset; returns the
raw bytes (the Go FixedZone name) and the offset in seconds. -/
def parseTZOffset (src : List Nat) : Option (List Nat × Int) :=
  match src with
  | [s, a, b, c, d] =>
    let sign : Option Int := if s = 45 then some (-1) else if s = 43 then some 1 else none
    match sign with
    | none => none
    | some sg =>
      if [a, b, c, d].all (fun x => decide (48 ≤ x ∧ x ≤ 57)) then
        let hours : Nat := (a - 48) * 10 + (b - 48)
        let minutes : Nat := (c - 48) * 10 + (d - 48)
        some (src, (((hours * 60 * 60 + minutes * 60) : Nat) : Int) * sg)
      else none
  | _ => none

/-- Two-or-more decimal digits with zero padding to width 2, as produced by
Go time's appendInt with width 2. -/
def pad2 (m : Nat) : List Nat := if m < 10 then [48, 48 + m] else natToDec m

/-- Rendering of a zone offset by Go Format with layout -0700: sign, then the
absolute offset in whole minutes as two-digit-padded hours and minutes. -/
def formatOffset (off : Int) : List Nat :=
  let zone : Int := Int.tdiv off 60
  let sgn : Nat := if zone < 0 then 45 else 43
  let z : Nat := zone.natAbs
  sgn :: (pad2 (z / 60) ++ pad2 (z % 60))

/-- Observable content of a Go time.Time as the commit codec uses it: the Unix
seconds (Unix method), and the fixed zone's name and offset in seconds. -/
structure Time where
  sec : Int
  tzName : List Nat
  tzOff : Int
deriving DecidableEq, Repr

/-- The Go zero time.Time as observed through this model: Unix seconds of
January 1, year 1 UTC, location UTC. -/
def goZeroTime : Time := { sec := -62135596800, tzName := strB "UTC", tzOff := 0 }

/-- Object identity: a 20-byte SHA-1 value, here a 20-element byte list. -/
abbrev SHA1 : Type := List Nat

/-- The all-zero object id. -/
def zeroSHA1 : SHA1 := List.replicate 20 0

/-- A byte list that is a valid 20-byte hash value. -/
def isBytes20 (l : List Nat) : Prop := l.length = 20 ∧ ∀ b ∈ l, b < 256

instance (l : List Nat) : Decidable (isBytes20 l) := by
  unfold isBytes20; infer_instance

/-- Embedding of object.Commit. -/
structure Commit where
  tree : SHA1
  parents : List SHA1
  author : List Nat
  authorTime : Time
  committer : List Nat
  commitTime : Time
  gpgSignature : List Nat
  message : List Nat
deriving DecidableEq, Repr

/-- The Go zero value of Commit, as produced by new(Commit). -/
def zeroCommit : Commit :=
  { tree := zeroSHA1, parents := [], author := [], authorTime := goZeroTime
    committer := [], commitTime := goZeroTime, gpgSignature := [], message := [] }

/-- Marshal error kinds of the commit codec (spec section 7). -/
inductive MErr where
  | invalidUser
  | unterminatedSignature
deriving DecidableEq, Repr

instance {ε α : Type} [DecidableEq ε] [DecidableEq α] : DecidableEq (Except ε α) :=
  fun a b =>
    match a, b with
    | .ok x, .ok y =>
      if h : x = y then .isTrue (by rw [h])
      else .isFalse (fun hc => h (by cases hc; rfl))
    | .ok _, .error _ => .isFalse (fun hc => Except.noConfusion hc)
    | .error _, .ok _ => .isFalse (fun hc => Except.noConfusion hc)
    | .error e, .error f =>
      if h : e = f then .isTrue (by rw [h])
      else .isFalse (fun hc => h (by cases hc; rfl))

/-- Parse error kinds of the commit codec. -/
inductive PErr where
  | treeMissing
  | treeHex
  | treeTrailing
  | parentHex
  | parentTrailing
  | authorMissing
  | committerMissing
  | userEOF
  | userFormat
  | userTimestamp
  | userTZ
  | sigEOF
  | blankLine
deriving DecidableEq, Repr

/-- Embedding of commit.go consumeUser. On error it returns the Go zero
values that the caller's multiple assignment stores anyway. -/
def consumeUser (src : List Nat) : (List Nat × Time × List Nat × Option PErr) :=
  match idxOf 10 src with
  | none => ([], goZeroTime, src, some .userEOF)
  | some eol =>
    let line := src.take eol
    let tail := src.drop (eol + 1)
    match lastIdxOf 32 line with
    | none => ([], goZeroTime, src, some .userFormat)
    | some tsEnd =>
      let tzStart := tsEnd + 1
      match lastIdxOf 32 (line.take tsEnd) with
      | none => ([], goZeroTime, src, some .userFormat)
      | some userEnd =>
        let tsStart := userEnd + 1
        match parseInt64 ((line.take tsEnd).drop tsStart) with
        | none => ([], goZeroTime, src, some .userTimestamp)
        | some ts =>
          match parseTZOffset (line.drop tzStart) with
          | none => ([], goZeroTime, src, some .userTZ)
          | some nmOff =>
            (line.take userEnd, { sec := ts, tzName := nmOff.1, tzOff := nmOff.2 },
              tail, none)

/-- Continuation-line loop of commit.go consumeSignature: while the tail
starts with a space, append the bytes after the space through the newline.
The fuel argument only bounds the recursion depth (each step strictly shortens
the tail, so any fuel above the tail length works). -/
def sigContF : Nat → List Nat → List Nat → (List Nat × List Nat × Option PErr)
  | 0, sig, tail => (sig, tail, none)
  | fuel + 1, sig, tail =>
    match tail with
    | [] => (sig, [], none)
    | t0 :: rest =>
      if t0 = 32 then
        match idxOf 10 (t0 :: rest) with
        | none => (sig, t0 :: rest, some .sigEOF)
        | some i =>
          sigContF fuel (sig ++ ((t0 :: rest).drop 1).take i) ((t0 :: rest).drop (i + 1))
      else (sig, t0 :: rest, none)

/-- Embedding of commit.go consumeSignature. -/
def consumeSignature (src : List Nat) : (List Nat × List Nat × Option PErr) :=
  match idxOf 10 src with
  | none => ([], src, some .sigEOF)
  | some i => sigContF (src.length + 1) (src.take (i + 1)) (src.drop (i + 1))

/-- Line loop of commit.go writeGPGSignature: each LF-terminated line of the
signature is emitted as a space followed by the line; a remainder with no LF
is the unterminated-line error (none). The fuel argument only bounds the
recursion depth (any fuel above the signature length works). -/
def gpgsigLoopF : Nat → List Nat → Option (List Nat)
  | 0, _ => none
  | fuel + 1, sig =>
    if sig = [] then some []
    else
      match idxOf 10 sig with
      | none => none
      | some i =>
        match gpgsigLoopF fuel (sig.drop (i + 1)) with
        | none => none
        | some rest => some ((32 :: sig.take (i + 1)) ++ rest)

/-- Line loop of commit.go writeGPGSignature with adequate fuel. -/
def gpgsigLoop (sig : List Nat) : Option (List Nat) :=
  gpgsigLoopF (sig.length + 1) sig

/-- Embedding of commit.go writeGPGSignature: nothing for an empty signature,
otherwise the gpgsig keyword followed by the folded lines. -/
def writeGPGSignature (sig : List Nat) : Option (List Nat) :=
  if sig = [] then some []
  else (gpgsigLoop sig).map (fun body => strB "gpgsig" ++ body)

/-- Embedding of Commit.MarshalText. -/
def marshalText (c : Commit) : Except MErr (List Nat) :=
  if 10 ∈ c.author then .error .invalidUser
  else if 10 ∈ c.committer then .error .invalidUser
  else
    match writeGPGSignature c.gpgSignature with
    | none => .error .unterminatedSignature
    | some gp =>
      .ok (strB "tree " ++ hexEncode c.tree ++ [10]
        ++ c.parents.flatMap (fun p => strB "parent " ++ hexEncode p ++ [10])
        ++ strB "author " ++ c.author ++ [32] ++ intToDec c.authorTime.sec
          ++ [32] ++ formatOffset c.authorTime.tzOff ++ [10]
        ++ strB "committer " ++ c.committer ++ [32] ++ intToDec c.commitTime.sec
          ++ [32] ++ formatOffset c.commitTime.tzOff ++ [10]
        ++ gp ++ [10] ++ c.message)

/-- Parent-line loop of Commit.UnmarshalText: consume parent lines while they
match, accumulating hashes; on a bad line report the error together with the
parents already stored on the receiver. -/
def parseParentsF : Nat → List SHA1 → List Nat → (List SHA1 × List Nat × Option PErr)
  | 0, acc, data => (acc, data, none)
  | fuel + 1, acc, data =>
    match consumeString data (strB "parent ") with
    | none => (acc, data, none)
    | some d1 =>
      match consumeHex 20 d1 with
      | (_, none) => (acc, data, some .parentHex)
      | (p, some d2) =>
        match consumeString d2 [10] with
        | none => (acc ++ [p], d2, some .parentTrailing)
        | some d3 => parseParentsF fuel (acc ++ [p]) d3

/-- Parent-line loop with adequate fuel (each iteration consumes 48 bytes, so
any fuel above the data length works). -/
def parseParents (acc : List SHA1) (data : List Nat) :
    (List SHA1 × List Nat × Option PErr) :=
  parseParentsF (data.length + 1) acc data

/-- Embedding of Commit.UnmarshalText. The receiver state is threaded
explicitly: the result is the receiver contents after the call together with
the error, mirroring the Go method's field-by-field assignments (the receiver
is untouched when the initial tree-keyword check fails, and reset then
partially assigned afterwards). -/
def unmarshalText (c0 : Commit) (data : List Nat) : Commit × Option PErr :=
  match consumeString data (strB "tree ") with
  | none => (c0, some .treeMissing)
  | some d1 =>
    match consumeHex 20 d1 with
    | (tr, none) => ({ zeroCommit with tree := tr }, some .treeHex)
    | (tr, some d2) =>
      match consumeString d2 [10] with
      | none => ({ zeroCommit with tree := tr }, some .treeTrailing)
      | some d3 =>
        match parseParents [] d3 with
        | (ps, _, some e) => ({ zeroCommit with tree := tr, parents := ps }, some e)
        | (ps, d4, none) =>
          match consumeString d4 (strB "author ") with
          | none =>
            ({ zeroCommit with tree := tr, parents := ps }, some .authorMissing)
          | some d5 =>
            match consumeUser d5 with
            | (u1, t1, d6, oe1) =>
              let cA : Commit :=
                { zeroCommit with
                    tree := tr, parents := ps, author := u1, authorTime := t1 }
              match oe1 with
              | some e => (cA, some e)
              | none =>
                match consumeString d6 (strB "committer ") with
                | none => (cA, some .committerMissing)
                | some d7 =>
                  match consumeUser d7 with
                  | (u2, t2, d8, oe2) =>
                    let cB : Commit := { cA with committer := u2, commitTime := t2 }
                    match oe2 with
                    | some e => (cB, some e)
                    | none =>
                      match consumeString d8 (strB "gpgsig ") with
                      | some d9 =>
                        match consumeSignature d9 with
                        | (sg, d10, oe3) =>
                          let cC : Commit := { cB with gpgSignature := sg }
                          match oe3 with
                          | some e => (cC, some e)
                          | none =>
                            match consumeString d10 [10] with
                            | none => (cC, some .blankLine)
                            | some d11 => ({ cC with message := d11 }, none)
                      | none =>
                        match consumeString d8 [10] with
                        | none => (cB, some .blankLine)
                        | some d11 => ({ cB with message := d11 }, none)

/-- Embedding of ParseCommit: UnmarshalText on a new zero commit. -/
def parseCommit (data : List Nat) : Commit × Option PErr :=
  unmarshalText zeroCommit data

/-- Modelled from the spec: object.AppendPrefix (defined outside the
extracted sources) frames an object body as the type tag, a space, the ASCII
decimal body length and a NUL byte (spec section 4.E, Identity). -/
def appendPrefix (typ : List Nat) (n : Nat) : List Nat :=
  typ ++ [32] ++ natToDec n ++ [0]

/-- Embedding of Commit.SHA1, parameterized by the SHA-1 compression function
(Go crypto/sha1, external to the repository): hashes the framed marshalled
bytes; the marshal-error panic is modelled as none. -/
def commitSHA1 (hash : List Nat → SHA1) (c : Commit) : Option SHA1 :=
  match marshalText c with
  | .error _ => none
  | .ok s => some (hash (appendPrefix (strB "commit") s.length ++ s))

/-- A Go time.Time value the codec round-trips exactly: its zone name is the
rendered ±hhmm offset, that rendering parses back to the same offset, and the
seconds lie in int64 range (automatic for any Go time.Time). -/
def wfTime (t : Time) : Prop :=
  parseTZOffset (formatOffset t.tzOff) = some (t.tzName, t.tzOff) ∧
    -(2 ^ 63) ≤ t.sec ∧ t.sec ≤ 2 ^ 63 - 1

instance (t : Time) : Decidable (wfTime t) := by
  unfold wfTime; infer_instance

/-- A well-formed commit: LF-free author and committer, an empty or
LF-terminated GPG signature, 20-byte hashes (automatic for Go [20]byte
values), and round-trippable timestamps. -/
def wfCommit (c : Commit) : Prop :=
  10 ∉ c.author ∧ 10 ∉ c.committer ∧
    (c.gpgSignature = [] ∨ c.gpgSignature.getLast? = some 10) ∧
    isBytes20 c.tree ∧ (∀ p ∈ c.parents, isBytes20 p) ∧
    wfTime c.authorTime ∧ wfTime c.commitTime

instance (c : Commit) : Decidable (wfCommit c) := by
  unfold wfCommit; infer_instance

/-- Client error kinds of the refs parser and fetch negotiator
(spec section 7). -/
inductive CErr where
  | framing
  | eof
  | badCap
  | missingNul
  | missingSpace
  | badId
  | nonZeroNoRefs
  | expectedFlush
  | badRefName
  | ackTooShort
  | badAckId
  | badAckStatus
  | badDirective
  | noSideBand
  | emptyWant
  | transport
deriving DecidableEq, Repr

/-- Modelled from the spec: a pkt-line frame (section 3), either a sentinel or
a data frame carrying a payload. -/
inductive Frame where
  | flush
  | delim
  | responseEnd
  | data (payload : List Nat)
deriving DecidableEq, Repr

/-- Four lowercase hex digits of a pkt-line length. -/
def hex4 (n : Nat) : List Nat :=
  [hexDig (n / 4096 % 16), hexDig (n / 256 % 16), hexDig (n / 16 % 16), hexDig (n % 16)]

/-- Modelled from the spec: pktline append_data (section 4.A) frames a payload
with a four-hex-digit total length including the prefix. -/
def appendData (buf payload : List Nat) : List Nat :=
  buf ++ hex4 (payload.length + 4) ++ payload

/-- Modelled from the spec: pktline append_flush writes the flush sentinel. -/
def appendFlush (buf : List Nat) : List Nat := buf ++ strB "0000"

/-- Byte encoding of one frame, matching appendData and appendFlush. -/
def encodeFrame : Frame → List Nat
  | .flush => strB "0000"
  | .delim => strB "0001"
  | .responseEnd => strB "0002"
  | .data p => hex4 (p.length + 4) ++ p

/-- Byte encoding of a frame sequence. -/
def pktEncodeList (fs : List Frame) : List Nat := fs.flatMap encodeFrame

/-- Modelled from the spec: the pkt-line reader's Text helper trims one
optional trailing LF from a data payload (section 4.A). -/
def trimLF (l : List Nat) : List Nat :=
  if l.getLast? = some 10 then l.dropLast else l

/-- Modelled from the spec: reading the current frame as text; only data
frames carry text (section 4.A). -/
def currentText : List Frame → Except CErr (List Nat)
  | [] => .error .eof
  | .data d :: _ => .ok (trimLF d)
  | _ :: _ => .error .framing

/-- Modelled from the spec: a capability set (section 3 and 4.B), a mapping
from names to value strings plus the symref mapping lifted out of repeated
symref tokens. Entries keep insertion order. -/
structure CapList where
  entries : List (List Nat × List Nat)
  syms : List (List Nat × List Nat)
deriving DecidableEq, Repr

/-- The empty capability set. -/
def emptyCaps : CapList := { entries := [], syms := [] }

/-- Membership test on capability names. -/
def CapList.supports (cl : CapList) (k : List Nat) : Bool :=
  cl.entries.any (fun kv => kv.1 == k)

/-- Map-style assignment: overwrite an existing key or append a new one. -/
def CapList.insert (cl : CapList) (k v : List Nat) : CapList :=
  if cl.entries.any (fun kv => kv.1 == k) then
    { cl with entries := cl.entries.map (fun kv => if kv.1 == k then (k, v) else kv) }
  else { cl with entries := cl.entries ++ [(k, v)] }

/-- Modelled from the spec: intersection is key-restriction keeping the
left-hand values (section 3). -/
def CapList.intersect (a b : CapList) : CapList :=
  { a with entries := a.entries.filter (fun kv => b.supports kv.1) }

/-- Modelled from the spec: a symref token value has the form from:to and
contributes one entry to the symref mapping (section 3). -/
def CapList.addSymref (cl : CapList) (v : List Nat) : CapList :=
  match idxOf 58 v with
  | none => cl
  | some i => { cl with syms := cl.syms ++ [(v.take i, v.drop (i + 1))] }

/-- Symref lookup with the Go zero value (empty name) as default. -/
def lookupSym (syms : List (List Nat × List Nat)) (k : List Nat) : List Nat :=
  ((syms.find? (fun kv => kv.1 == k)).map (fun kv => kv.2)).getD []

/-- One capability token as advertised: key or key=value. -/
def capToken (kv : List Nat × List Nat) : List Nat :=
  if kv.2 = [] then kv.1 else kv.1 ++ [61] ++ kv.2

/-- Modelled from the spec: space-separated rendering of a capability set in
entry order (section 4.B token grammar). -/
def capsRender : List (List Nat × List Nat) → List Nat
  | [] => []
  | [kv] => capToken kv
  | kv :: kv2 :: rest => capToken kv ++ 32 :: capsRender (kv2 :: rest)

/-- The capability names the engine negotiates (spec section 4.B). -/
def multiAckCap : List Nat := strB "multi_ack"

/-- ofs-delta capability name. -/
def ofsDeltaCap : List Nat := strB "ofs-delta"

/-- no-progress capability name. -/
def noProgressCap : List Nat := strB "no-progress"

/-- side-band-64k capability name. -/
def sideBand64KCap : List Nat := strB "side-band-64k"

/-- side-band capability name. -/
def sideBandCap : List Nat := strB "side-band"

/-- symref capability name. -/
def symrefCap : List Nat := strB "symref"

/-- Modelled from the spec: acknowledgement lines start with this tag
(section 4.D response parsing). -/
def ackTag : List Nat := strB "ACK "

/-- Modelled from the spec: the negative acknowledgement line. -/
def nakLine : List Nat := strB "NAK"

/-- A capability key character: ASCII letters, digits, underscore, hyphen. -/
def isCapKeyChar (c : Nat) : Bool :=
  (65 ≤ c && c ≤ 90) || (97 ≤ c && c ≤ 122) || (48 ≤ c && c ≤ 57) || c == 95 || c == 45

/-- Modelled from the spec: parse one capability token of the form key or
key=value (section 4.B). -/
def parseCapability (tok : List Nat) : Except CErr (List Nat × List Nat) :=
  let p : List Nat × List Nat :=
    match idxOf 61 tok with
    | none => (tok, [])
    | some i => (tok.take i, tok.drop (i + 1))
  if !p.1.isEmpty && p.1.all isCapKeyChar then .ok p else .error .badCap

/-- Record one parsed capability: symref tokens feed the symref mapping, all
others the entry map. -/
def addCap (cl : CapList) (k v : List Nat) : CapList :=
  if k == symrefCap then cl.addSymref v else cl.insert k v

/-- Parse a whitespace-split capability token list into a capability set. -/
def parseCapTokensAux : CapList → List (List Nat) → Except CErr CapList
  | cl, [] => .ok cl
  | cl, t :: ts =>
    match parseCapability t with
    | .error e => .error e
    | .ok kv => parseCapTokensAux (addCap cl kv.1 kv.2) ts

/-- An ASCII whitespace byte as recognized by Go bytes.Fields. -/
def isWSByte (b : Nat) : Bool :=
  b == 32 || b == 9 || b == 10 || b == 11 || b == 12 || b == 13

/-- Accumulator loop of Go bytes.Fields. -/
def fieldsAux (acc : List Nat) : List Nat → List (List Nat)
  | [] => if acc.isEmpty then [] else [acc.reverse]
  | b :: bs =>
    if isWSByte b then
      (if acc.isEmpty then fieldsAux [] bs else acc.reverse :: fieldsAux [] bs)
    else fieldsAux (b :: acc) bs

/-- Go bytes.Fields: split around runs of whitespace. -/
def fieldsWS (l : List Nat) : List (List Nat) := fieldsAux [] l

/-- Modelled from the spec: githash.ParseSHA1 and SHA1.UnmarshalText parse
exactly 40 hex digits into a 20-byte id (section 3, Object identity). -/
def sha1FromHex (l : List Nat) : Option SHA1 :=
  if l.length = 40 then
    match hexDecodeAcc l with
    | (bs, true) => some bs
    | (_, false) => none
  else none

/-- Embedding of client.Ref: a named advertised ref. -/
structure Ref where
  name : List Nat
  id : SHA1
  symrefTarget : List Nat
deriving DecidableEq, Repr

/-- Two adjacent bytes occur in order somewhere in the list. -/
def containsSeq2 (a b : Nat) : List Nat → Bool
  | [] => false
  | [_] => false
  | x :: y :: rest => (x == a && y == b) || containsSeq2 a b (y :: rest)

/-- The name ends with the five bytes .lock. -/
def endsWithLock (l : List Nat) : Bool :=
  decide (l.length ≥ 5 ∧ l.drop (l.length - 5) = strB ".lock")

/-- Modelled from the spec: githash.Ref.IsValid checks Git ref-name rules —
non-empty, no dot-dot, no control bytes, no leading slash, no trailing .lock
(section 4.C rule 4). -/
def isValidRefName (n : List Nat) : Bool :=
  !n.isEmpty && !containsSeq2 46 46 n && n.all (fun b => 31 < b && b != 127) &&
    n.head? != some 47 && !endsWithLock n

/-- Embedding of parseFirstRefV1: split the first advertisement line at the
NUL, parse id, name and capability tokens; the literal capabilities-caret-pair
name with the zero id advertises no refs. -/
def parseFirstRefV1 (line : List Nat) : Except CErr (Option Ref × CapList) :=
  match idxOf 0 line with
  | none => .error .missingNul
  | some refEnd =>
    match idxOf 32 (line.take refEnd) with
    | none => .error .missingSpace
    | some idEnd =>
      match sha1FromHex (line.take idEnd) with
      | none => .error .badId
      | some id =>
        let refName := (line.take refEnd).drop (idEnd + 1)
        match parseCapTokensAux emptyCaps (fieldsWS (line.drop (refEnd + 1))) with
        | .error e => .error e
        | .ok caps =>
          if refName = strB "capabilities^" ++ [123, 125] then
            (if id ≠ zeroSHA1 then .error .nonZeroNoRefs else .ok (none, caps))
          else if !isValidRefName refName then .error .badRefName
          else .ok (some { name := refName, id := id, symrefTarget := lookupSym caps.syms refName }, caps)

/-- Embedding of readFirstRefV1 over the advertisement frame list: read the
first line (skipping an optional version 1 line); a no-refs response must be
followed by exactly a flush frame. Returns the frames after the consumed
part. -/
def readFirstRefV1 (frames : List Frame) :
    Except CErr (Option Ref × CapList × List Frame) :=
  match currentText frames with
  | .error e => .error e
  | .ok line0 =>
    let fs := if line0 = strB "version 1" then frames.drop 1 else frames
    match currentText fs with
    | .error e => .error e
    | .ok line =>
      match parseFirstRefV1 line with
      | .error e => .error e
      | .ok (none, caps) =>
        match fs.drop 1 with
        | .flush :: rest => .ok (none, caps, rest)
        | [] => .error .eof
        | _ :: _ => .error .expectedFlush
      | .ok (some r, caps) => .ok (some r, caps, fs.drop 1)

/-- Embedding of parseOtherRefV1: a plain hex-id SP name line. -/
def parseOtherRefV1 (line0 : List Nat) : Except CErr Ref :=
  let line := trimLF line0
  match idxOf 32 line with
  | none => .error .missingSpace
  | some idEnd =>
    let refName := line.drop (idEnd + 1)
    if !isValidRefName refName then .error .badRefName
    else
      match sha1FromHex (line.take idEnd) with
      | none => .error .badId
      | some id => .ok { name := refName, id := id, symrefTarget := [] }

/-- Embedding of readOtherRefsV1: read ref lines until a flush frame,
resolving symref targets; a parse error discards the accumulated refs exactly
as the Go code returns nil. -/
def readOtherRefsV1 : List Ref → List (List Nat × List Nat) → List Frame →
    (List Ref × Option CErr)
  | refs, _, [] => (refs, none)
  | refs, _, .flush :: _ => (refs, none)
  | refs, syms, .data d :: rest =>
    (match parseOtherRefV1 (trimLF d) with
    | .error e => ([], some e)
    | .ok ref =>
      readOtherRefsV1 (refs ++ [{ ref with symrefTarget := lookupSym syms ref.name }])
        syms rest)
  | _, _, .delim :: _ => ([], some .framing)
  | _, _, .responseEnd :: _ => ([], some .framing)

/-- Embedding of the fetchV1 struct state relevant to refs listing. -/
structure FetchV1State where
  caps : CapList
  refs : List Ref
  refsError : Option CErr
  pending : Option (List Frame)
deriving DecidableEq, Repr

/-- Embedding of newFetchV1: read the first ref eagerly; on error or a no-refs
advertisement the reader is closed (no pending frames). -/
def newFetchV1 (frames : List Frame) : FetchV1State :=
  match readFirstRefV1 frames with
  | .error e => { caps := emptyCaps, refs := [], refsError := some e, pending := none }
  | .ok (none, caps, _) =>
    { caps := caps, refs := [], refsError := none, pending := none }
  | .ok (some r, caps, rest) =>
    { caps := caps, refs := [r], refsError := none, pending := some rest }

/-- Embedding of fetchV1.listRefs: drain the remaining advertisement on first
use, then return all refs for an empty prefix list, otherwise one copy of each
ref per prefix that matches its name. -/
def listRefs (st : FetchV1State) (refPrefixes : List (List Nat)) :
    (List Ref × Option CErr) :=
  let drained : List Ref × Option CErr :=
    match st.pending with
    | some rest => readOtherRefsV1 st.refs st.caps.syms rest
    | none => (st.refs, st.refsError)
  if refPrefixes.isEmpty then drained
  else
    (drained.1.flatMap (fun r =>
      (refPrefixes.filter (fun p => p.isPrefixOf r.name)).map (fun _ => r)),
      drained.2)

/-- Embedding of FetchRequest (progress sink reduced to its presence, the only
property negotiate reads). -/
structure FetchRequest where
  want : List SHA1
  haves : List SHA1
  haveMore : Bool
  hasProgress : Bool
deriving DecidableEq, Repr

/-- Embedding of FetchResponse: the ack set and, when available, the packfile
modelled as the remaining response frames handed to the side-band reader. -/
structure FetchResponse where
  acks : List SHA1
  packfile : Option (List Frame)
deriving DecidableEq, Repr

/-- The fetch extra-parameter for protocol version 1. -/
def v1ExtraParams : String := "version=1"

/-- Capability selection of fetchV1.negotiate (lines 211-230): start from
multi_ack and ofs-delta plus no-progress when no progress sink is attached,
intersect with the server set, then require exactly one side-band variant,
preferring side-band-64k. -/
def selectCaps (serverCaps : CapList) (hasProgress : Bool) : Except CErr CapList :=
  let useCaps0 : CapList := { entries := [(multiAckCap, []), (ofsDeltaCap, [])], syms := [] }
  let useCaps1 := if !hasProgress then useCaps0.insert noProgressCap [] else useCaps0
  let useCaps2 := useCaps1.intersect serverCaps
  if serverCaps.supports sideBand64KCap then .ok (useCaps2.insert sideBand64KCap [])
  else if serverCaps.supports sideBandCap then .ok (useCaps2.insert sideBandCap [])
  else .error .noSideBand

/-- Command buffer assembly of fetchV1.negotiate (lines 232-245): the first
want line carries the selected capabilities, then plain want lines, a flush,
have lines, and done or a flush depending on have_more. -/
def buildCommandBuf (useCaps : CapList) (w0 : SHA1) (ws haves : List SHA1)
    (haveMore : Bool) : List Nat :=
  let b0 := appendData [] (strB "want " ++ hexEncode w0 ++ 32 ::
    (capsRender useCaps.entries ++ [10]))
  let b1 := ws.foldl (fun b w => appendData b (strB "want " ++ hexEncode w ++ [10])) b0
  let b2 := appendFlush b1
  let b3 := haves.foldl
    (fun b hv => appendData b (strB "have " ++ hexEncode hv ++ [10])) b2
  if !haveMore then appendData b3 (strB "done") else appendFlush b3

/-- Acknowledgement loop of fetchV1.negotiate (lines 261-293): ACK lines
record ids; a statusless ACK ends negotiation having found a common base, the
continue status keeps reading, anything else is a bad-ack error; NAK stops. -/
def parseAcks : List SHA1 → List Frame → Except CErr (List SHA1 × Bool × List Frame)
  | acks, [] => .ok (acks, false, [])
  | acks, .data d :: fs =>
    let line := trimLF d
    if ackTag.isPrefixOf line then
      (let rest := line.drop ackTag.length
       if 40 > rest.length then .error .ackTooShort
       else
         match sha1FromHex (rest.take 40) with
         | none => .error .badAckId
         | some id =>
           let acks2 := if acks.contains id then acks else acks ++ [id]
           let status := rest.drop 40
           if status = [] then .ok (acks2, true, fs)
           else if status = strB "continue" then parseAcks acks2 fs
           else .error .badAckStatus)
    else if line = nakLine then .ok (acks, false, fs)
    else .error .badDirective
  | _, .flush :: _ => .error .framing
  | _, .delim :: _ => .error .framing
  | _, .responseEnd :: _ => .error .framing

/-- Response assembly of fetchV1.negotiate (lines 294-305): the packfile is
present when a common base was found or the request declared done. -/
def finishNegotiate (haveMore : Bool) (frames : List Frame) :
    Except CErr FetchResponse :=
  match parseAcks [] frames with
  | .error e => .error e
  | .ok (acks, found, rest) =>
    .ok { acks := acks, packfile := if found || !haveMore then some rest else none }

/-- Embedding of fetchV1.negotiate over an abstract stateless transport: select
capabilities, build the command buffer, post it with the version=1 extra
parameter, and parse the acknowledgement section of the response. -/
def negotiate (serverCaps : CapList)
    (uploadPack : String → List Nat → Except CErr (List Frame))
    (req : FetchRequest) : Except CErr FetchResponse :=
  match selectCaps serverCaps req.hasProgress with
  | .error e => .error e
  | .ok useCaps =>
    match req.want with
    | [] => .error .emptyWant
    | w0 :: ws =>
      match uploadPack v1ExtraParams
        (buildCommandBuf useCaps w0 ws req.haves req.haveMore) with
      | .error e => .error e
      | .ok frames => finishNegotiate req.haveMore frames

/-- A fixed-zone time whose zone label is not the rendered offset. -/
def cexTimeUTC : Time := { sec := 0, tzName := strB "UTC", tzOff := 0 }

/-- A commit meeting the claimed well-formedness (LF-free users, empty
signature) whose times carry the UTC zone label. -/
def cexCommitC1 : Commit :=
  { tree := zeroSHA1, parents := [], author := strB "A", authorTime := cexTimeUTC
    committer := strB "A", commitTime := cexTimeUTC, gpgSignature := [], message := [] }

/-- The bytes MarshalText emits for cexCommitC1. -/
def cexBytesC1 : List Nat :=
  strB "tree 0000000000000000000000000000000000000000\nauthor A 0 +0000\ncommitter A 0 +0000\n\n"

/-- A round-trippable fixed-zone time (zone label equals the rendering). -/
def witTime : Time := { sec := 1578610200, tzName := strB "-0800", tzOff := -28800 }

/-- A fully well-formed commit exercising parents and a GPG signature. -/
def witCommitC1 : Commit :=
  { tree := List.replicate 20 170, parents := [List.replicate 20 187]
    author := strB "Alice <a@e>", authorTime := witTime
    committer := strB "Alice <a@e>", commitTime := witTime
    gpgSignature := strB "-----X-----\nab\n", message := strB "hi\n" }

/-- An erroneous commit input whose tree line parses before the failure. -/
def cexInputC9 : List Nat :=
  strB "tree 0000000000000000000000000000000000000001\nx"

/-- A concrete object id. -/
def idX : SHA1 := List.replicate 19 0 ++ [1]

/-- Another concrete object id. -/
def idY : SHA1 := List.replicate 19 0 ++ [2]

/-- A server capability set offering multi_ack and side-band-64k. -/
def sb64Caps : CapList :=
  { entries := [(multiAckCap, []), (sideBand64KCap, [])], syms := [] }

/-- A server capability set offering neither side-band variant. -/
def noSBCaps : CapList := { entries := [(multiAckCap, [])], syms := [] }

/-- The spec scenario S3 response: an ACK with continue status, then NAK. -/
def ackContinueFrames : List Frame :=
  [.data (strB "ACK " ++ hexEncode idY ++ strB " continue" ++ [10]),
    .data (strB "NAK" ++ [10])]

/-- The spec scenario S3 request: one want, one have, more haves to come. -/
def reqS3 : FetchRequest :=
  { want := [idX], haves := [idY], haveMore := true, hasProgress := false }

/-- A request that declares done (have_more false). -/
def reqDone : FetchRequest :=
  { want := [idX], haves := [], haveMore := false, hasProgress := false }

/-- A no-refs advertisement first line: zero-or-given id, the
capabilities-caret-pair name, NUL, capability tokens. -/
def noRefsLine (id : SHA1) (capBytes : List Nat) : List Nat :=
  hexEncode id ++ [32] ++ strB "capabilities^" ++ [123, 125] ++ [0] ++ capBytes

/-- A ref whose name has two nested prefixes. -/
def refA7 : Ref := { name := strB "abc", id := idX, symrefTarget := [] }

/-- A drained fetch state holding one ref. -/
def st7 : FetchV1State :=
  { caps := emptyCaps, refs := [refA7], refsError := none, pending := none }

/-- consumeString strips an exact leading literal. -/
theorem consumeString_right (pre t : List Nat) :
    consumeString (pre ++ t) pre = some t := by
  unfold consumeString
  rw [List.take_left, List.drop_left]
  simp

/-- consumeString fails when the heads differ at an equal-length block. -/
theorem consumeString_ne (a x pre : List Nat) (hlen : a.length = pre.length)
    (hne : a ≠ pre) : consumeString (a ++ x) pre = none := by
  unfold consumeString
  rw [← hlen, List.take_left]
  simp [hne]

/-- idxOf finds nothing exactly on lists not containing the byte. -/
theorem idxOf_none (b : Nat) (l : List Nat) : idxOf b l = none ↔ b ∉ l := by
  induction l with
  | nil => simp [idxOf]
  | cons x xs ih =>
    simp only [idxOf, List.mem_cons]
    by_cases hx : x = b
    · simp [hx]
    · rw [if_neg hx]
      cases hxs : idxOf b xs with
      | none =>
        have hxs2 : b ∉ xs := ih.mp hxs
        constructor
        · intro _ hc
          rcases hc with hc | hc
          · exact hx hc.symm
          · exact hxs2 hc
        · intro _; rfl
      | some j =>
        constructor
        · intro h
          exact absurd h (by simp)
        · intro h
          exfalso
          have h2 := ih.mpr (fun hmem => h (Or.inr hmem))
          rw [hxs] at h2
          cases h2

/-- idxOf over an append whose left part lacks the byte. -/
theorem idxOf_append (b : Nat) (l1 l2 : List Nat) (h : b ∉ l1) :
    idxOf b (l1 ++ b :: l2) = some l1.length := by
  induction l1 with
  | nil => simp [idxOf]
  | cons x xs ih =>
    simp only [List.cons_append, idxOf]
    have hx : ¬(x = b) := fun hc => h (by simp [hc])
    rw [if_neg hx]
    have ih2 := ih (fun hm => h (List.mem_cons_of_mem x hm))
    show Option.map (· + 1) (idxOf b (xs ++ b :: l2)) = some (x :: xs).length
    rw [ih2]
    simp

/-- lastIdxOf finds nothing exactly on lists not containing the byte. -/
theorem lastIdxOf_none (b : Nat) (l : List Nat) : lastIdxOf b l = none ↔ b ∉ l := by
  induction l with
  | nil => simp [lastIdxOf]
  | cons x xs ih =>
    simp only [lastIdxOf, List.mem_cons]
    cases hxs : lastIdxOf b xs with
    | some j =>
      constructor
      · intro h; cases h
      · intro h
        exfalso
        have h2 := ih.mpr (fun hm => h (Or.inr hm))
        rw [hxs] at h2
        cases h2
    | none =>
      have hxs2 := ih.mp hxs
      by_cases hx : x = b
      · simp [hx]
      · rw [if_neg hx]
        constructor
        · intro _ hc
          rcases hc with hc | hc
          · exact hx hc.symm
          · exact hxs2 hc
        · intro _; rfl

/-- lastIdxOf over an append whose right part lacks the byte. -/
theorem lastIdxOf_append (b : Nat) (l1 l2 : List Nat) (h : b ∉ l2) :
    lastIdxOf b (l1 ++ b :: l2) = some l1.length := by
  induction l1 with
  | nil =>
    simp only [List.nil_append, lastIdxOf]
    rw [(lastIdxOf_none b l2).mpr h]
    simp
  | cons x xs ih =>
    show lastIdxOf b (x :: (xs ++ b :: l2)) = some (x :: xs).length
    simp only [lastIdxOf]
    rw [ih]
    simp

/-- A found first index is within the list. -/
theorem idxOf_lt_length (b : Nat) (l : List Nat) (i : Nat)
    (h : idxOf b l = some i) : i < l.length := by
  induction l generalizing i with
  | nil => simp [idxOf] at h
  | cons x xs ih =>
    simp only [idxOf] at h
    split at h
    · cases h; simp
    · match hx : idxOf b xs with
      | none => rw [hx] at h; simp at h
      | some j =>
        rw [hx] at h
        have h2 : some (j + 1) = some i := h
        cases h2
        have := ih j hx
        simp only [List.length_cons]
        omega

/-- A successful consumeString consumed exactly the literal. -/
theorem consumeString_some (src pre t : List Nat)
    (h : consumeString src pre = some t) :
    t = src.drop pre.length ∧ pre.length ≤ src.length := by
  unfold consumeString at h
  split at h
  · cases h
    refine ⟨rfl, ?_⟩
    rename_i hTake
    have := congrArg List.length hTake
    simp at this
    omega
  · cases h

/-- A successful consumeHex consumed exactly the hex digits. -/
theorem consumeHex_some (n : Nat) (src p t : List Nat)
    (h : consumeHex n src = (p, some t)) :
    t = src.drop (2 * n) ∧ 2 * n ≤ src.length := by
  unfold consumeHex at h
  split at h
  · simp at h
  · rename_i hLen
    split at h
    · simp only [Prod.mk.injEq, Option.some.injEq] at h
      exact ⟨h.2.symm, by omega⟩
    · simp at h

/-- Length of the hex encoding. -/
theorem hexEncode_length (l : List Nat) : (hexEncode l).length = 2 * l.length := by
  induction l with
  | nil => rfl
  | cons x xs ih => simp [hexEncode, List.flatMap_cons] at *; omega

/-- Every byte of the hex encoding of genuine bytes is a digit or a lowercase
hex letter. -/
theorem hexEncode_mem (l : List Nat) (hl : ∀ b ∈ l, b < 256) (c : Nat)
    (h : c ∈ hexEncode l) : (48 ≤ c ∧ c ≤ 57) ∨ (97 ≤ c ∧ c ≤ 102) := by
  induction l with
  | nil => cases h
  | cons x xs ih =>
    have hx : x < 256 := hl x (by simp)
    simp only [hexEncode, List.flatMap_cons, List.mem_append, List.mem_cons] at h
    have hd : ∀ v, hexDig v = c → v < 16 →
        (48 ≤ c ∧ c ≤ 57) ∨ (97 ≤ c ∧ c ≤ 102) := by
      intro v hv hlt
      unfold hexDig at hv
      split at hv <;> omega
    rcases h with h | h
    · rcases h with h | h | h
      · exact hd (x / 16) h.symm (by omega)
      · exact hd (x % 16) h.symm (by omega)
      · cases h
    · exact ih (fun b hb => hl b (List.mem_cons_of_mem x hb)) h

/-- Decoding a hex digit produced by encoding recovers the value. -/
theorem hexDigitVal_hexDig (x : Nat) (h : x < 16) :
    hexDigitVal (hexDig x) = some x := by
  unfold hexDig
  rcases Nat.lt_or_ge x 10 with h10 | h10
  · rw [if_pos h10]
    unfold hexDigitVal
    rw [if_pos (by omega)]
    congr 1
    omega
  · rw [if_neg (by omega)]
    unfold hexDigitVal
    rw [if_neg (by omega), if_pos (by omega)]
    congr 1
    omega

/-- Full hex decode of an encoding recovers the bytes. -/
theorem hexDecodeAcc_encode (l : List Nat) (h : ∀ b ∈ l, b < 256) :
    hexDecodeAcc (hexEncode l) = (l, true) := by
  induction l with
  | nil => rfl
  | cons x xs ih =>
    have hx : x < 256 := h x (by simp)
    have hxs := ih (fun b hb => h b (List.mem_cons_of_mem x hb))
    show hexDecodeAcc (hexDig (x / 16) :: hexDig (x % 16) :: hexEncode xs) = _
    simp only [hexDecodeAcc, hexDigitVal_hexDig (x / 16) (by omega),
      hexDigitVal_hexDig (x % 16) (by omega), hxs]
    have : 16 * (x / 16) + x % 16 = x := by omega
    simp [this]

/-- consumeHex on an exact-width hex encoding followed by a tail. -/
theorem consumeHex_encode (l rest : List Nat) (n : Nat)
    (hlen : l.length = n) (hb : ∀ b ∈ l, b < 256) :
    consumeHex n (hexEncode l ++ rest) = (l, some rest) := by
  unfold consumeHex
  have he : (hexEncode l).length = 2 * n := by rw [hexEncode_length, hlen]
  rw [if_neg (by rw [List.length_append, he]; omega)]
  rw [List.take_left' he, List.drop_left' he, hexDecodeAcc_encode l hb]

/-- The digits produced by natToDecF are ASCII digits, the list is nonempty,
and folding them back gives the value, for any adequate fuel. -/
theorem natToDecF_spec (fuel n : Nat) (h : n < fuel) :
    (∀ d ∈ natToDecF fuel n, 48 ≤ d ∧ d ≤ 57) ∧ natToDecF fuel n ≠ [] ∧
      (natToDecF fuel n).foldl (fun a d => a * 10 + (d - 48)) 0 = n := by
  induction fuel generalizing n with
  | zero => omega
  | succ f ih =>
    by_cases h10 : n < 10
    · simp only [natToDecF, if_pos h10]
      refine ⟨by intro d hd; simp at hd; omega, by simp, ?_⟩
      simp only [List.foldl_cons, List.foldl_nil]
      omega
    · simp only [natToDecF, if_neg h10]
      have hrec : n / 10 < f := by
        have : n / 10 < n := Nat.div_lt_self (by omega) (by omega)
        omega
      obtain ⟨ihd, ihne, ihval⟩ := ih (n / 10) hrec
      refine ⟨?_, by simp, ?_⟩
      · intro d hd
        rcases List.mem_append.mp hd with hd | hd
        · exact ihd d hd
        · simp at hd; omega
      · rw [List.foldl_append, ihval]
        simp only [List.foldl_cons, List.foldl_nil]
        omega

/-- Decimal digits fold back to the value. -/
theorem natToDec_spec (n : Nat) :
    (∀ d ∈ natToDec n, 48 ≤ d ∧ d ≤ 57) ∧ natToDec n ≠ [] ∧
      (natToDec n).foldl (fun a d => a * 10 + (d - 48)) 0 = n :=
  natToDecF_spec (n + 1) n (by omega)

/-- Bytes of intToDec are a minus sign or digits. -/
theorem intToDec_mem (z : Int) (c : Nat) (h : c ∈ intToDec z) :
    c = 45 ∨ (48 ≤ c ∧ c ≤ 57) := by
  unfold intToDec at h
  split at h
  · rcases List.mem_cons.mp h with h | h
    · exact Or.inl h
    · exact Or.inr ((natToDec_spec _).1 c h)
  · exact Or.inr ((natToDec_spec _).1 c h)

/-- parseInt64Digits succeeds on a nonempty all-digit list in range. -/
theorem parseInt64Digits_ok (neg : Bool) (ds : List Nat) (hne : ds ≠ [])
    (hdig : ∀ d ∈ ds, 48 ≤ d ∧ d ≤ 57) :
    parseInt64Digits neg ds =
      (let v : Nat := ds.foldl (fun a d => a * 10 + (d - 48)) 0
       if neg then (if v ≤ 2 ^ 63 then some (-(v : Int)) else none)
       else (if v ≤ 2 ^ 63 - 1 then some (v : Int) else none)) := by
  unfold parseInt64Digits
  rw [if_neg hne]
  rw [if_pos (by rw [List.all_eq_true]; intro d hd; exact decide_eq_true (hdig d hd))]

/-- Go ParseInt inverts Go %d on every int64 value. -/
theorem parseInt64_intToDec (z : Int) (hlo : -(2 ^ 63) ≤ z) (hhi : z ≤ 2 ^ 63 - 1) :
    parseInt64 (intToDec z) = some z := by
  by_cases hz : z < 0
  · obtain ⟨hdig, hne, hval⟩ := natToDec_spec z.natAbs
    have hrep : intToDec z = 45 :: natToDec z.natAbs := by rw [intToDec, if_pos hz]
    rw [hrep]
    have hstep : parseInt64 (45 :: natToDec z.natAbs) =
        parseInt64Digits true (natToDec z.natAbs) := rfl
    rw [hstep, parseInt64Digits_ok true _ hne hdig]
    simp only [hval, if_pos rfl]
    have habs : (z.natAbs : Int) = -z := by
      rcases Int.natAbs_eq z with he | he <;> omega
    rw [if_pos (show z.natAbs ≤ 2 ^ 63 from by
      have h2 : (z.natAbs : Int) ≤ (2 : Int) ^ 63 := by rw [habs]; omega
      exact_mod_cast h2)]
    rw [habs, neg_neg]
    simp
  · obtain ⟨hdig, hne, hval⟩ := natToDec_spec z.toNat
    have hrep : intToDec z = natToDec z.toNat := by rw [intToDec, if_neg hz]
    rw [hrep]
    match hm : natToDec z.toNat with
    | [] => exact absurd hm hne
    | c :: rest =>
      have hc : 48 ≤ c ∧ c ≤ 57 := hdig c (by rw [hm]; simp)
      rw [hm] at hdig hval
      show (if c = 45 then parseInt64Digits true rest
        else if c = 43 then parseInt64Digits false rest
        else parseInt64Digits false (c :: rest)) = some z
      rw [if_neg (by omega), if_neg (by omega),
        parseInt64Digits_ok false _ (by simp) hdig]
      simp only [hval, Bool.false_eq_true, if_false]
      rw [if_pos (by omega)]
      congr 1
      omega

/-- Shape of a successfully parsed timezone offset: the name is the raw five
bytes, a sign then four digits. -/
theorem parseTZOffset_shape (src : List Nat) (nm : List Nat) (off : Int)
    (h : parseTZOffset src = some (nm, off)) :
    nm = src ∧ src.length = 5 ∧
      (∀ c ∈ src, c = 43 ∨ c = 45 ∨ (48 ≤ c ∧ c ≤ 57)) := by
  match src with
  | [s, a, b, c, d] =>
    unfold parseTZOffset at h
    simp only [] at h
    by_cases hs : s = 45
    · rw [if_pos hs] at h
      simp only [] at h
      split at h
      · rename_i hdig
        simp only [Option.some.injEq, Prod.mk.injEq] at h
        refine ⟨h.1.symm, rfl, ?_⟩
        simp only [List.all_eq_true, decide_eq_true_eq] at hdig
        intro x hx
        simp only [List.mem_cons] at hx
        rcases hx with hx | hx | hx | hx | hx | hx
        · omega
        · have := hdig a (by simp); omega
        · have := hdig b (by simp); omega
        · have := hdig c (by simp); omega
        · have := hdig d (by simp); omega
        · cases hx
      · cases h
    · rw [if_neg hs] at h
      by_cases hs2 : s = 43
      · rw [if_pos hs2] at h
        simp only [] at h
        split at h
        · rename_i hdig
          simp only [Option.some.injEq, Prod.mk.injEq] at h
          refine ⟨h.1.symm, rfl, ?_⟩
          simp only [List.all_eq_true, decide_eq_true_eq] at hdig
          intro x hx
          simp only [List.mem_cons] at hx
          rcases hx with hx | hx | hx | hx | hx | hx
          · omega
          · have := hdig a (by simp); omega
          · have := hdig b (by simp); omega
          · have := hdig c (by simp); omega
          · have := hdig d (by simp); omega
          · cases hx
        · cases h
      · rw [if_neg hs2] at h
        cases h
  | [] => cases h
  | [_] => cases h
  | [_, _] => cases h
  | [_, _, _] => cases h
  | [_, _, _, _] => cases h
  | _ :: _ :: _ :: _ :: _ :: _ :: _ => cases h

/-- Dropping past an append boundary plus one removes the marker byte. -/
theorem drop_append_cons (A x : List Nat) (b : Nat) :
    (A ++ b :: x).drop (A.length + 1) = x := by
  rw [← List.drop_drop, List.drop_left]
  rfl

/-- consumeUser recovers the user, timestamp and zone from an emitted author
or committer line followed by arbitrary bytes. -/
theorem consumeUser_round (u ds os rest nm : List Nat) (sec off : Int)
    (hu10 : 10 ∉ u)
    (hds : ds = intToDec sec)
    (hlo : -(2 ^ 63) ≤ sec) (hhi : sec ≤ 2 ^ 63 - 1)
    (hos : parseTZOffset os = some (nm, off)) :
    consumeUser (u ++ 32 :: (ds ++ 32 :: (os ++ 10 :: rest))) =
      (u, { sec := sec, tzName := nm, tzOff := off }, rest, none) := by
  obtain ⟨hnm, hlen5, hmem⟩ := parseTZOffset_shape os nm off hos
  have h10ds : (10 : Nat) ∉ ds := by
    rw [hds]; intro hc; rcases intToDec_mem sec 10 hc with h | h <;> omega
  have h32ds : (32 : Nat) ∉ ds := by
    rw [hds]; intro hc; rcases intToDec_mem sec 32 hc with h | h <;> omega
  have h10os : (10 : Nat) ∉ os := by
    intro hc; rcases hmem 10 hc with h | h | h <;> omega
  have h32os : (32 : Nat) ∉ os := by
    intro hc; rcases hmem 32 hc with h | h | h <;> omega
  have hL : u ++ 32 :: (ds ++ 32 :: (os ++ 10 :: rest)) =
      (u ++ 32 :: (ds ++ 32 :: os)) ++ 10 :: rest := by simp
  have hIdx : idxOf 10 ((u ++ 32 :: (ds ++ 32 :: os)) ++ 10 :: rest) =
      some (u ++ 32 :: (ds ++ 32 :: os)).length := by
    apply idxOf_append
    intro hc
    rcases List.mem_append.mp hc with hc | hc
    · exact hu10 hc
    · rcases List.mem_cons.mp hc with hc | hc
      · omega
      · rcases List.mem_append.mp hc with hc | hc
        · exact h10ds hc
        · rcases List.mem_cons.mp hc with hc | hc
          · omega
          · exact h10os hc
  have hTake : ((u ++ 32 :: (ds ++ 32 :: os)) ++ 10 :: rest).take
      (u ++ 32 :: (ds ++ 32 :: os)).length = u ++ 32 :: (ds ++ 32 :: os) :=
    List.take_left _ _
  have hDrop : ((u ++ 32 :: (ds ++ 32 :: os)) ++ 10 :: rest).drop
      ((u ++ 32 :: (ds ++ 32 :: os)).length + 1) = rest :=
    drop_append_cons _ _ _
  have hLast : lastIdxOf 32 (u ++ 32 :: (ds ++ 32 :: os)) =
      some (u ++ 32 :: ds).length := by
    have hsh : u ++ 32 :: (ds ++ 32 :: os) = (u ++ 32 :: ds) ++ 32 :: os := by simp
    rw [hsh]
    exact lastIdxOf_append 32 _ _ h32os
  have hTake2 : (u ++ 32 :: (ds ++ 32 :: os)).take (u ++ 32 :: ds).length =
      u ++ 32 :: ds := by
    have hsh : u ++ 32 :: (ds ++ 32 :: os) = (u ++ 32 :: ds) ++ 32 :: os := by simp
    rw [hsh]
    exact List.take_left _ _
  have hLast2 : lastIdxOf 32 (u ++ 32 :: ds) = some u.length :=
    lastIdxOf_append 32 _ _ h32ds
  have hDs : (u ++ 32 :: ds).drop (u.length + 1) = ds := drop_append_cons _ _ _
  have hInt : parseInt64 ds = some sec := by
    rw [hds]; exact parseInt64_intToDec sec hlo hhi
  have hOs : (u ++ 32 :: (ds ++ 32 :: os)).drop ((u ++ 32 :: ds).length + 1) = os := by
    have hsh : u ++ 32 :: (ds ++ 32 :: os) = (u ++ 32 :: ds) ++ 32 :: os := by simp
    rw [hsh]
    exact drop_append_cons _ _ _
  have hU : (u ++ 32 :: (ds ++ 32 :: os)).take u.length = u := by
    have hsh : u ++ 32 :: (ds ++ 32 :: os) = u ++ (32 :: (ds ++ 32 :: os)) := rfl
    rw [hsh]
    exact List.take_left _ _
  unfold consumeUser
  rw [hL, hIdx]
  simp only [hTake, hDrop, hLast, hTake2, hLast2, hDs, hInt, hOs, hU, hos]

/-- The last element is a member. -/
theorem getLast_mem (l : List Nat) (a : Nat) (h : l.getLast? = some a) : a ∈ l := by
  induction l with
  | nil => cases h
  | cons x xs ih =>
    cases xs with
    | nil =>
      simp only [List.getLast?_singleton, Option.some.injEq] at h
      simp [h]
    | cons y ys =>
      rw [List.getLast?_cons_cons] at h
      exact List.mem_cons_of_mem x (ih h)

/-- getLast? is preserved by dropping a strict prefix. -/
theorem getLast_drop (l : List Nat) (k : Nat) (h : l.drop k ≠ []) :
    l.getLast? = (l.drop k).getLast? := by
  conv_lhs => rw [← List.take_append_drop k l]
  exact List.getLast?_append_of_ne_nil _ h

/-- The first found index splits the list with the byte at the boundary. -/
theorem idxOf_split (b : Nat) (l : List Nat) (i : Nat) (h : idxOf b l = some i) :
    l.take (i + 1) = l.take i ++ [b] ∧ b ∉ l.take i := by
  induction l generalizing i with
  | nil => cases h
  | cons x xs ih =>
    simp only [idxOf] at h
    by_cases hx : x = b
    · rw [if_pos hx] at h
      have h0 : i = 0 := by
        have h2 : some 0 = some i := h
        cases h2; rfl
      subst h0
      subst hx
      exact ⟨rfl, by simp⟩
    · rw [if_neg hx] at h
      match hxs : idxOf b xs with
      | none => rw [hxs] at h; cases h
      | some j =>
        rw [hxs] at h
        have h2 : some (j + 1) = some i := h
        cases h2
        obtain ⟨ht, hm⟩ := ih j hxs
        constructor
        · show x :: xs.take (j + 1) = (x :: xs.take j) ++ [b]
          rw [ht]
          simp
        · intro hc
          rcases List.mem_cons.mp hc with hc | hc
          · exact hx hc.symm
          · exact hm hc

/-- The gpgsig line loop succeeds exactly on LF-terminated signatures, its
output is no shorter than the input, and it starts with a space. -/
theorem gpgsigLoopF_ok (fuel : Nat) : ∀ sig : List Nat, sig.length < fuel →
    sig = [] ∨ sig.getLast? = some 10 →
    ∃ body, gpgsigLoopF fuel sig = some body ∧ sig.length ≤ body.length ∧
      (sig ≠ [] → ∃ bt, body = 32 :: bt) := by
  induction fuel with
  | zero => intro sig h; omega
  | succ f ih =>
    intro sig hlen hsig
    by_cases hne : sig = []
    · subst hne
      exact ⟨[], by rw [gpgsigLoopF, if_pos rfl], by simp, by simp⟩
    · have hlast : sig.getLast? = some 10 := hsig.resolve_left hne
      have hmem : (10 : Nat) ∈ sig := getLast_mem sig 10 hlast
      match hi : idxOf 10 sig with
      | none => exact absurd ((idxOf_none 10 sig).mp hi) (by simp [hmem])
      | some i =>
        have hilt := idxOf_lt_length 10 sig i hi
        have hrec : (sig.drop (i + 1)).length < f := by
          rw [List.length_drop]; omega
        have hcase : sig.drop (i + 1) = [] ∨ (sig.drop (i + 1)).getLast? = some 10 := by
          by_cases hd : sig.drop (i + 1) = []
          · exact Or.inl hd
          · exact Or.inr (by rw [← getLast_drop sig (i + 1) hd]; exact hlast)
        obtain ⟨body2, hb2, hlen2, _⟩ := ih (sig.drop (i + 1)) hrec hcase
        refine ⟨(32 :: sig.take (i + 1)) ++ body2, ?_, ?_, ?_⟩
        · rw [gpgsigLoopF, if_neg hne]
          simp only [hi, hb2]
        · have : (sig.take (i + 1)).length = i + 1 := List.length_take_of_le (by omega)
          simp only [List.length_append, List.length_cons, this, List.length_drop] at *
          omega
        · intro _
          exact ⟨sig.take (i + 1) ++ body2, by simp⟩

/-- The signature continuation loop undoes the gpgsig line folding: reading
the folded continuation lines back restores the signature tail. -/
theorem sigContF_round (f1 : Nat) : ∀ (rest1 body1 : List Nat),
    rest1.length < f1 → (rest1 = [] ∨ rest1.getLast? = some 10) →
    gpgsigLoopF f1 rest1 = some body1 →
    ∀ (f2 : Nat) (sigAcc msg : List Nat), rest1.length < f2 →
      sigContF f2 sigAcc (body1 ++ 10 :: msg) = (sigAcc ++ rest1, 10 :: msg, none) := by
  induction f1 with
  | zero => intro rest1 _ h; omega
  | succ f ih =>
    intro rest1 body1 hlen hsig hloop f2 sigAcc msg hf2
    by_cases hne : rest1 = []
    · subst hne
      rw [gpgsigLoopF, if_pos rfl] at hloop
      have hb : body1 = [] := by
        have h2 : some ([] : List Nat) = some body1 := hloop
        cases h2; rfl
      subst hb
      match f2 with
      | g + 1 =>
        rw [List.nil_append, List.append_nil]
        rfl
    · have hlast : rest1.getLast? = some 10 := hsig.resolve_left hne
      have hmem : (10 : Nat) ∈ rest1 := getLast_mem rest1 10 hlast
      rw [gpgsigLoopF, if_neg hne] at hloop
      match hi : idxOf 10 rest1 with
      | none =>
        simp only [hi] at hloop
        exact Option.noConfusion hloop
      | some i =>
        simp only [hi] at hloop
        have hilt := idxOf_lt_length 10 rest1 i hi
        match hb2 : gpgsigLoopF f (rest1.drop (i + 1)) with
        | none =>
          simp only [hb2] at hloop
          exact Option.noConfusion hloop
        | some body2 =>
          simp only [hb2, Option.some.injEq] at hloop
          have hbody : (32 :: rest1.take (i + 1)) ++ body2 = body1 := by
            simpa using hloop
          obtain ⟨hsplit, hnotin⟩ := idxOf_split 10 rest1 i hi
          have htlen : (rest1.take i).length = i := List.length_take_of_le (by omega)
          have hrec : (rest1.drop (i + 1)).length < f := by
            rw [List.length_drop]; omega
          have hcase : rest1.drop (i + 1) = [] ∨
              (rest1.drop (i + 1)).getLast? = some 10 := by
            by_cases hd : rest1.drop (i + 1) = []
            · exact Or.inl hd
            · exact Or.inr (by rw [← getLast_drop rest1 (i + 1) hd]; exact hlast)
          match f2 with
          | g + 1 =>
            rw [← hbody]
            have hT : ((32 :: rest1.take (i + 1)) ++ body2) ++ 10 :: msg =
                32 :: (rest1.take i ++ 10 :: (body2 ++ 10 :: msg)) := by
              rw [hsplit]
              simp
            have hstep : sigContF (g + 1) sigAcc
                (((32 :: rest1.take (i + 1)) ++ body2) ++ 10 :: msg) =
                sigContF g (sigAcc ++ rest1.take (i + 1)) (body2 ++ 10 :: msg) := by
              rw [hT]
              have hIdx2 : idxOf 10
                  (32 :: (rest1.take i ++ 10 :: (body2 ++ 10 :: msg))) =
                  some (i + 1) := by
                have hni : (10 : Nat) ∉ 32 :: rest1.take i := by
                  intro hc
                  rcases List.mem_cons.mp hc with hc | hc
                  · omega
                  · exact hnotin hc
                have h1 := idxOf_append 10 (32 :: rest1.take i)
                  (body2 ++ 10 :: msg) hni
                simp only [List.cons_append, List.length_cons, htlen] at h1
                exact h1
              simp only [sigContF, hIdx2]
              have hA : ((32 :: (rest1.take i ++ 10 :: (body2 ++ 10 :: msg))).drop
                  1).take (i + 1) = rest1.take (i + 1) := by
                show ((rest1.take i ++ 10 :: (body2 ++ 10 :: msg))).take (i + 1) =
                  rest1.take (i + 1)
                have hx : rest1.take i ++ 10 :: (body2 ++ 10 :: msg) =
                    (rest1.take i ++ [10]) ++ (body2 ++ 10 :: msg) := by simp
                rw [hx, List.take_left' (by simp [htlen]), ← hsplit]
              have hB : (32 :: (rest1.take i ++ 10 :: (body2 ++ 10 :: msg))).drop
                  (i + 1 + 1) = body2 ++ 10 :: msg := by
                show (rest1.take i ++ 10 :: (body2 ++ 10 :: msg)).drop (i + 1) =
                  body2 ++ 10 :: msg
                have hx : rest1.take i ++ 10 :: (body2 ++ 10 :: msg) =
                    (rest1.take i ++ [10]) ++ (body2 ++ 10 :: msg) := by simp
                rw [hx, List.drop_left' (by simp [htlen])]
              simp only [hA, hB, if_true]
            rw [hstep]
            have hrec2 : (rest1.drop (i + 1)).length < g := by
              have h0 : rest1.length ≠ 0 := by
                intro hc
                exact hne (List.length_eq_zero.mp hc)
              rw [List.length_drop]
              omega
            rw [ih (rest1.drop (i + 1)) body2 hrec hcase hb2 g
              (sigAcc ++ rest1.take (i + 1)) msg hrec2]
            rw [List.append_assoc, List.take_append_drop]

/-- Round trip of the gpgsig folding: the emitted continuation body parses
back to the original signature, leaving the blank header line. -/
theorem consumeSignature_round (sig msg : List Nat) (hne : sig ≠ [])
    (hlast : sig.getLast? = some 10) :
    ∃ bt, gpgsigLoop sig = some (32 :: bt) ∧
      consumeSignature (bt ++ 10 :: msg) = (sig, 10 :: msg, none) := by
  have hmem : (10 : Nat) ∈ sig := getLast_mem sig 10 hlast
  match hi : idxOf 10 sig with
  | none => exact absurd ((idxOf_none 10 sig).mp hi) (by simp [hmem])
  | some i =>
    have hilt := idxOf_lt_length 10 sig i hi
    have hlen0 : sig.length ≠ 0 := by
      intro hc; exact hne (List.length_eq_zero.mp hc)
    have hrec : (sig.drop (i + 1)).length < sig.length := by
      rw [List.length_drop]; omega
    have hcase : sig.drop (i + 1) = [] ∨ (sig.drop (i + 1)).getLast? = some 10 := by
      by_cases hd : sig.drop (i + 1) = []
      · exact Or.inl hd
      · exact Or.inr (by rw [← getLast_drop sig (i + 1) hd]; exact hlast)
    obtain ⟨body2, hb2, hlen2, _⟩ :=
      gpgsigLoopF_ok sig.length (sig.drop (i + 1)) hrec hcase
    obtain ⟨hsplit, hnotin⟩ := idxOf_split 10 sig i hi
    have htlen : (sig.take i).length = i := List.length_take_of_le (by omega)
    refine ⟨sig.take (i + 1) ++ body2, ?_, ?_⟩
    · show gpgsigLoopF (sig.length + 1) sig = _
      rw [gpgsigLoopF, if_neg hne]
      simp only [hi, hb2]
      simp
    · unfold consumeSignature
      have hshape : (sig.take (i + 1) ++ body2) ++ 10 :: msg =
          sig.take i ++ 10 :: (body2 ++ 10 :: msg) := by
        rw [hsplit]
        simp
      rw [hshape]
      have hIdx : idxOf 10 (sig.take i ++ 10 :: (body2 ++ 10 :: msg)) = some i := by
        have h1 := idxOf_append 10 (sig.take i) (body2 ++ 10 :: msg) hnotin
        rw [htlen] at h1
        exact h1
      simp only [hIdx]
      have hx : sig.take i ++ 10 :: (body2 ++ 10 :: msg) =
          (sig.take i ++ [10]) ++ (body2 ++ 10 :: msg) := by simp
      have hA : (sig.take i ++ 10 :: (body2 ++ 10 :: msg)).take (i + 1) =
          sig.take (i + 1) := by
        rw [hx, List.take_left' (by simp [htlen]), ← hsplit]
      have hB : (sig.take i ++ 10 :: (body2 ++ 10 :: msg)).drop (i + 1) =
          body2 ++ 10 :: msg := by
        rw [hx, List.drop_left' (by simp [htlen])]
      rw [hA, hB]
      have hrest : (sig.drop (i + 1)).length <
          (sig.take i ++ 10 :: (body2 ++ 10 :: msg)).length + 1 := by
        rw [List.length_append, List.length_cons, List.length_append,
          List.length_cons, htlen, List.length_drop] at *
        omega
      rw [sigContF_round sig.length (sig.drop (i + 1)) body2 hrec hcase hb2
        _ (sig.take (i + 1)) msg hrest]
      rw [List.take_append_drop]

/-- consumeString fails when the first byte already differs. -/
theorem consumeString_head_ne (b p0 : Nat) (x pre : List Nat) (h : b ≠ p0) :
    consumeString (b :: x) (p0 :: pre) = none := by
  unfold consumeString
  rw [if_neg]
  intro hc
  rw [List.length_cons, List.take_succ_cons] at hc
  exact h (List.cons.injEq .. ▸ hc).1

/-- The emitted parent block has 48 bytes per parent. -/
theorem parentsBytes_length (ps : List SHA1) (h : ∀ p ∈ ps, isBytes20 p) :
    (ps.flatMap (fun p => strB "parent " ++ hexEncode p ++ [10])).length =
      48 * ps.length := by
  induction ps with
  | nil => rfl
  | cons p rest ih =>
    have hp : p.length = 20 := (h p (by simp)).1
    have hr := ih (fun q hq => h q (List.mem_cons_of_mem p hq))
    simp only [List.flatMap_cons, List.length_append, hr, hexEncode_length, hp,
      List.length_cons]
    have h7 : (strB "parent ").length = 7 := rfl
    rw [h7]
    simp only [List.length_nil, List.length_cons]
    omega

/-- The parent-line loop consumes exactly the emitted parent block and stops
at data that does not open a parent line. -/
theorem parseParentsF_round (ps : List SHA1) : ∀ (fuel : Nat) (acc : List SHA1)
    (rest : List Nat), (∀ p ∈ ps, isBytes20 p) → ps.length < fuel →
    consumeString rest (strB "parent ") = none →
    parseParentsF fuel acc
      (ps.flatMap (fun p => strB "parent " ++ hexEncode p ++ [10]) ++ rest) =
      (acc ++ ps, rest, none) := by
  induction ps with
  | nil =>
    intro fuel acc rest _ hfuel hrest
    match fuel with
    | f + 1 =>
      simp only [List.flatMap_nil, List.nil_append]
      rw [parseParentsF]
      simp only [hrest, List.append_nil]
  | cons p rest2 ih =>
    intro fuel acc rest hps hfuel hrest
    match fuel with
    | f + 1 =>
      have hp : isBytes20 p := hps p (by simp)
      have hshape : (p :: rest2).flatMap
            (fun q => strB "parent " ++ hexEncode q ++ [10]) ++ rest =
          strB "parent " ++ (hexEncode p ++
            ([10] ++ (rest2.flatMap
              (fun q => strB "parent " ++ hexEncode q ++ [10]) ++ rest))) := by
        simp [List.flatMap_cons, List.append_assoc]
      rw [hshape, parseParentsF]
      have e1 := consumeString_right (strB "parent ")
        (hexEncode p ++ ([10] ++ (rest2.flatMap
          (fun q => strB "parent " ++ hexEncode q ++ [10]) ++ rest)))
      simp only [e1]
      have e2 := consumeHex_encode p
        ([10] ++ (rest2.flatMap
          (fun q => strB "parent " ++ hexEncode q ++ [10]) ++ rest)) 20 hp.1 hp.2
      simp only [e2]
      have e3 := consumeString_right [10]
        (rest2.flatMap (fun q => strB "parent " ++ hexEncode q ++ [10]) ++ rest)
      simp only [e3]
      rw [ih f (acc ++ [p]) rest
        (fun q hq => hps q (List.mem_cons_of_mem p hq)) (by simp at hfuel ⊢; omega)
        hrest]
      simp

/-- Marshalling a well-formed commit succeeds and parsing the output restores
the commit exactly (receiver equal to the input, no error). -/
theorem marshal_parse_round (c : Commit) (h : wfCommit c) :
    ∃ s, marshalText c = .ok s ∧ parseCommit s = (c, none) := by
  obtain ⟨tr, pl, au, ⟨secA, nmA, offA⟩, co, ⟨secC, nmC, offC⟩, sg, ms⟩ := c
  obtain ⟨hau, hco, hsg, htr, hpl, ⟨hosA, hloA, hhiA⟩, ⟨hosC, hloC, hhiC⟩⟩ := h
  have hgpx : ∃ gp, writeGPGSignature sg = some gp ∧
      (sg = [] → gp = []) ∧
      (sg ≠ [] → ∃ bt, gp = strB "gpgsig" ++ 32 :: bt ∧
        consumeSignature (bt ++ 10 :: ms) = (sg, 10 :: ms, none)) := by
    rcases hsg with hsg | hsg
    · subst hsg
      exact ⟨[], rfl, fun _ => rfl, fun hc => absurd rfl hc⟩
    · have hne : sg ≠ [] := by
        intro hc; subst hc; simp at hsg
      obtain ⟨bt, hbt, hparse⟩ := consumeSignature_round sg ms hne hsg
      refine ⟨strB "gpgsig" ++ 32 :: bt, ?_, fun hc => absurd hc hne, ?_⟩
      · unfold writeGPGSignature
        rw [if_neg hne, hbt]
        rfl
      · intro _
        exact ⟨bt, rfl, hparse⟩
  obtain ⟨gp, hgp, hgpnil, hgpcons⟩ := hgpx
  obtain ⟨T7, hT7⟩ : ∃ x, gp ++ 10 :: ms = x := ⟨_, rfl⟩
  obtain ⟨T6, hT6⟩ : ∃ x, co ++ 32 :: (intToDec secC ++ 32 ::
    (formatOffset offC ++ 10 :: T7)) = x := ⟨_, rfl⟩
  obtain ⟨T5, hT5⟩ : ∃ x, strB "committer " ++ T6 = x := ⟨_, rfl⟩
  obtain ⟨T4, hT4⟩ : ∃ x, au ++ 32 :: (intToDec secA ++ 32 ::
    (formatOffset offA ++ 10 :: T5)) = x := ⟨_, rfl⟩
  obtain ⟨T3, hT3⟩ : ∃ x, strB "author " ++ T4 = x := ⟨_, rfl⟩
  obtain ⟨T2, hT2⟩ : ∃ x,
    pl.flatMap (fun p => strB "parent " ++ hexEncode p ++ [10]) ++ T3 = x := ⟨_, rfl⟩
  obtain ⟨T1, hT1⟩ : ∃ x, (10 : Nat) :: T2 = x := ⟨_, rfl⟩
  obtain ⟨T0, hT0⟩ : ∃ x, hexEncode tr ++ T1 = x := ⟨_, rfl⟩
  refine ⟨strB "tree " ++ T0, ?_, ?_⟩
  · unfold marshalText
    rw [if_neg hau, if_neg hco, hgp]
    rw [← hT0, ← hT1, ← hT2, ← hT3, ← hT4, ← hT5, ← hT6, ← hT7]
    simp [List.append_assoc]
  · have e1 : consumeString (strB "tree " ++ T0) (strB "tree ") = some T0 :=
      consumeString_right _ _
    have e2 : consumeHex 20 T0 = (tr, some T1) := by
      rw [← hT0]
      exact consumeHex_encode tr T1 20 htr.1 htr.2
    have e3 : consumeString T1 [10] = some T2 := by
      rw [← hT1]
      simpa using consumeString_right [10] T2
    have e4 : parseParentsF (T2.length + 1) [] T2 = ([] ++ pl, T3, none) := by
      rw [← hT2]
      refine parseParentsF_round pl _ [] T3 hpl ?_ ?_
      · rw [List.length_append, parentsBytes_length pl hpl]
        omega
      · rw [← hT3]
        exact consumeString_ne (strB "author ") _ (strB "parent ") rfl (by decide)
    have e5 : consumeString T3 (strB "author ") = some T4 := by
      rw [← hT3]
      exact consumeString_right _ _
    have e6 : consumeUser T4 =
        (au, ⟨secA, nmA, offA⟩, T5, none) := by
      rw [← hT4]
      exact consumeUser_round au _ _ T5 nmA secA offA hau rfl hloA hhiA hosA
    have e7 : consumeString T5 (strB "committer ") = some T6 := by
      rw [← hT5]
      exact consumeString_right _ _
    have e8 : consumeUser T6 =
        (co, ⟨secC, nmC, offC⟩, T7, none) := by
      rw [← hT6]
      exact consumeUser_round co _ _ T7 nmC secC offC hco rfl hloC hhiC hosC
    have e10 : consumeString (10 :: ms) [10] = some ms := by
      simpa using consumeString_right [10] ms
    unfold parseCommit unmarshalText parseParents
    simp only [e1, e2, e3, e4, e5, e6, e7, e8, List.nil_append]
    rw [← hT7]
    by_cases hnil : sg = []
    · have hg0 : gp = [] := hgpnil hnil
      subst hg0
      subst hnil
      have e9 : consumeString (10 :: ms) (strB "gpgsig ") = none := by
        rw [show strB "gpgsig " = 103 :: strB "pgsig " from rfl]
        exact consumeString_head_ne 10 103 ms _ (by omega)
      simp only [List.nil_append, e9, e10]
      rfl
    · obtain ⟨bt, hgbt, hparse⟩ := hgpcons hnil
      subst hgbt
      have e9 : consumeString ((strB "gpgsig" ++ 32 :: bt) ++ 10 :: ms)
          (strB "gpgsig ") = some (bt ++ 10 :: ms) := by
        have hx : (strB "gpgsig" ++ 32 :: bt) ++ 10 :: ms =
            strB "gpgsig " ++ (bt ++ 10 :: ms) := by
          rw [show strB "gpgsig " = strB "gpgsig" ++ [32] from rfl]
          simp
        rw [hx]
        exact consumeString_right _ _
      simp only [e9, hparse, e10]

/-- A successful gpgsig line loop implies the signature was empty or
LF-terminated. -/
theorem gpgsigLoopF_some (fuel : Nat) : ∀ sig body, gpgsigLoopF fuel sig = some body →
    sig = [] ∨ sig.getLast? = some 10 := by
  induction fuel with
  | zero => intro sig body h; exact Option.noConfusion h
  | succ f ih =>
    intro sig body h
    by_cases hne : sig = []
    · exact Or.inl hne
    · right
      rw [gpgsigLoopF, if_neg hne] at h
      match hi : idxOf 10 sig with
      | none =>
        simp only [hi] at h
        exact Option.noConfusion h
      | some i =>
        simp only [hi] at h
        match hb2 : gpgsigLoopF f (sig.drop (i + 1)) with
        | none =>
          simp only [hb2] at h
          exact Option.noConfusion h
        | some body2 =>
          have hilt := idxOf_lt_length 10 sig i hi
          obtain ⟨hsplit, _⟩ := idxOf_split 10 sig i hi
          rcases ih (sig.drop (i + 1)) body2 hb2 with hd | hd
          · have hsig : sig = sig.take (i + 1) := by
              conv_lhs => rw [← List.take_append_drop (i + 1) sig]
              rw [hd, List.append_nil]
            rw [hsig, hsplit]
            simp
          · have hdne : sig.drop (i + 1) ≠ [] := by
              intro hc
              rw [hc] at hd
              cases hd
            rw [getLast_drop sig (i + 1) hdne]
            exact hd

/-- writeGPGSignature fails exactly on a nonempty signature whose last line is
unterminated (no trailing LF). -/
theorem writeGPG_none_iff (sig : List Nat) :
    writeGPGSignature sig = none ↔ sig ≠ [] ∧ sig.getLast? ≠ some 10 := by
  unfold writeGPGSignature
  by_cases hne : sig = []
  · subst hne
    simp
  · rw [if_neg hne]
    constructor
    · intro h
      refine ⟨hne, ?_⟩
      intro hl
      obtain ⟨body, hb, _, _⟩ :=
        gpgsigLoopF_ok (sig.length + 1) sig (by omega) (Or.inr hl)
      have : gpgsigLoop sig = some body := hb
      rw [this] at h
      exact Option.noConfusion h
    · rintro ⟨_, hl⟩
      match hg : gpgsigLoop sig with
      | none => simp
      | some body =>
        exfalso
        rcases gpgsigLoopF_some (sig.length + 1) sig body hg with h2 | h2
        · exact hne h2
        · exact hl h2

/-- Case analysis of MarshalText: the two user checks, the signature check and
the success case. -/
theorem marshalText_cases (c : Commit) :
    (10 ∈ c.author → marshalText c = .error .invalidUser) ∧
    (10 ∉ c.author → 10 ∈ c.committer → marshalText c = .error .invalidUser) ∧
    (10 ∉ c.author → 10 ∉ c.committer → c.gpgSignature ≠ [] →
      c.gpgSignature.getLast? ≠ some 10 →
      marshalText c = .error .unterminatedSignature) ∧
    (10 ∉ c.author → 10 ∉ c.committer →
      (c.gpgSignature = [] ∨ c.gpgSignature.getLast? = some 10) →
      ∃ s, marshalText c = .ok s) := by
  refine ⟨?_, ?_, ?_, ?_⟩
  · intro ha
    unfold marshalText
    rw [if_pos ha]
  · intro ha hc
    unfold marshalText
    rw [if_neg ha, if_pos hc]
  · intro ha hc hs hl
    unfold marshalText
    rw [if_neg ha, if_neg hc, (writeGPG_none_iff c.gpgSignature).mpr ⟨hs, hl⟩]
  · intro ha hc hok
    unfold marshalText
    rw [if_neg ha, if_neg hc]
    match hg : writeGPGSignature c.gpgSignature with
    | some gp => exact ⟨_, rfl⟩
    | none =>
      exfalso
      obtain ⟨hs, hl⟩ := (writeGPG_none_iff c.gpgSignature).mp hg
      rcases hok with hok | hok
      · exact hs hok
      · exact hl hok

/-- MarshalText errors exactly on an LF in a user field or an unterminated
signature line. -/
theorem marshalText_error_iff (c : Commit) :
    (∃ e, marshalText c = .error e) ↔
      (10 ∈ c.author ∨ 10 ∈ c.committer ∨
        (c.gpgSignature ≠ [] ∧ c.gpgSignature.getLast? ≠ some 10)) := by
  obtain ⟨h1, h2, h3, h4⟩ := marshalText_cases c
  constructor
  · rintro ⟨e, he⟩
    by_contra hcon
    push_neg at hcon
    obtain ⟨ha, hc, hsig⟩ := hcon
    have hok : c.gpgSignature = [] ∨ c.gpgSignature.getLast? = some 10 := by
      by_cases hs : c.gpgSignature = []
      · exact Or.inl hs
      · exact Or.inr (hsig hs)
    obtain ⟨s, hs2⟩ := h4 ha hc hok
    rw [hs2] at he
    exact Except.noConfusion he
  · intro h
    by_cases ha : 10 ∈ c.author
    · exact ⟨_, h1 ha⟩
    · by_cases hc : 10 ∈ c.committer
      · exact ⟨_, h2 ha hc⟩
      · rcases h with h | h | ⟨hs, hl⟩
        · exact absurd h ha
        · exact absurd h hc
        · exact ⟨_, h3 ha hc hs hl⟩

/-- C8: MarshalText returns an error exactly when the author contains LF, the
committer contains LF, or the signature is nonempty with an unterminated last
line; the user violations yield InvalidUser and the signature violation yields
UnterminatedSignature. -/
theorem claim_C8 (c : Commit) :
    ((∃ e, marshalText c = .error e) ↔
      (10 ∈ c.author ∨ 10 ∈ c.committer ∨
        (c.gpgSignature ≠ [] ∧ c.gpgSignature.getLast? ≠ some 10))) ∧
    (10 ∈ c.author ∨ 10 ∈ c.committer → marshalText c = .error .invalidUser) ∧
    (10 ∉ c.author → 10 ∉ c.committer → c.gpgSignature ≠ [] →
      c.gpgSignature.getLast? ≠ some 10 →
      marshalText c = .error .unterminatedSignature) := by
  obtain ⟨h1, h2, h3, _⟩ := marshalText_cases c
  refine ⟨marshalText_error_iff c, ?_, h3⟩
  intro h
  by_cases ha : 10 ∈ c.author
  · exact h1 ha
  · rcases h with h | h
    · exact absurd h ha
    · exact h2 ha h

/-- C8 witness: the characterization evaluated on a commit with an LF-bearing
author. -/
theorem claim_C8_witness :
    marshalText { cexCommitC1 with author := [10] } = .error .invalidUser :=
  (claim_C8 { cexCommitC1 with author := [10] }).2.1 (Or.inl (by decide))

/-- C10: the SHA1 method panics (modelled none) exactly when MarshalText
would fail — under the emission preconditions it hashes the framed
serialization. -/
theorem claim_C10 (c : Commit) (hash : List Nat → SHA1) :
    (commitSHA1 hash c = none ↔
      (10 ∈ c.author ∨ 10 ∈ c.committer ∨
        (c.gpgSignature ≠ [] ∧ c.gpgSignature.getLast? ≠ some 10))) ∧
    (∀ s, marshalText c = .ok s →
      commitSHA1 hash c = some (hash (appendPrefix (strB "commit") s.length ++ s))) := by
  constructor
  · rw [← marshalText_error_iff c]
    unfold commitSHA1
    constructor
    · intro h
      match hm : marshalText c with
      | .error e => exact ⟨e, rfl⟩
      | .ok s =>
        rw [hm] at h
        exact Option.noConfusion h
    · rintro ⟨e, he⟩
      rw [he]
  · intro s hs
    unfold commitSHA1
    rw [hs]

/-- C10 witness: the panic case at an LF author and the hash case at a
well-formed commit, with a concrete hash function. -/
theorem claim_C10_witness :
    commitSHA1 (fun _ => zeroSHA1) { cexCommitC1 with author := [10] } = none ∧
    commitSHA1 (fun _ => zeroSHA1) cexCommitC1 =
      some ((fun _ => zeroSHA1) (appendPrefix (strB "commit") cexBytesC1.length ++ cexBytesC1)) := by
  constructor
  · exact (claim_C10 { cexCommitC1 with author := [10] } (fun _ => zeroSHA1)).1.mpr
      (Or.inl (by decide))
  · exact (claim_C10 cexCommitC1 (fun _ => zeroSHA1)).2 cexBytesC1 (by decide)

/-- C9 counterexample: commit parsing of an input failing after a valid tree
line returns an error together with a partially assigned commit, so the
receiver is not left indistinguishable from the zero commit. -/
theorem claim_C9_cex :
    (parseCommit cexInputC9).2.isSome = true ∧
      (parseCommit cexInputC9).1 ≠ zeroCommit := by decide

/-- C9 amended: only when the input fails the initial tree-keyword check is
the receiver returned unmodified with the error; otherwise the receiver is
reset and assigned field by field, so an erroneous input can leave an
observable partially assigned commit (witnessed by the concrete input). -/
theorem claim_C9 (c0 : Commit) (data : List Nat) :
    (consumeString data (strB "tree ") = none →
      unmarshalText c0 data = (c0, some .treeMissing)) ∧
    ((parseCommit cexInputC9).2.isSome = true ∧
      (parseCommit cexInputC9).1.tree ≠ zeroSHA1) := by
  constructor
  · intro h
    unfold unmarshalText
    simp only [h]
  · decide

/-- C9 witness: the amended claim applied at a concrete receiver and input. -/
theorem claim_C9_witness :
    unmarshalText zeroCommit (strB "x") = (zeroCommit, some .treeMissing) ∧
      ((parseCommit cexInputC9).2.isSome = true ∧
        (parseCommit cexInputC9).1.tree ≠ zeroSHA1) :=
  ⟨(claim_C9 zeroCommit (strB "x")).1 (by decide), (claim_C9 zeroCommit (strB "x")).2⟩

/-- C2: the code, contrary to the claim, rejects the wire form
ACK id SP continue: the status bytes after the 40-hex id are a space followed
by continue, but negotiate compares them to continue without the space, so
scenario S3 fails with the bad-ack error instead of succeeding. -/
theorem claim_C2_bug :
    negotiate sb64Caps (fun _ _ => .ok ackContinueFrames) reqS3 =
      .error .badAckStatus ∧
    parseAcks [] ackContinueFrames = .error .badAckStatus := by
  exact ⟨rfl, rfl⟩

/-- C1 counterexample: a commit meeting the claimed well-formedness (LF-free
users, empty signature) whose zone label UTC is not the rendered offset;
MarshalText succeeds but parsing its output yields a different commit (the
label comes back as +0000). -/
theorem claim_C1_cex :
    10 ∉ cexCommitC1.author ∧ 10 ∉ cexCommitC1.committer ∧
      cexCommitC1.gpgSignature = [] ∧
      marshalText cexCommitC1 = .ok cexBytesC1 ∧
      (parseCommit cexBytesC1).1 ≠ cexCommitC1 := by decide

/-- C1 (amended): for every commit with LF-free users, an empty or
LF-terminated signature, 20-byte tree and parent hashes, int64-range seconds
and zone labels equal to their rendered offsets, parsing the marshalled bytes
restores the commit exactly, and the SHA1 method hashes exactly the bytes
commit SP decimal-length NUL body. -/
theorem claim_C1 (c : Commit) (hash : List Nat → SHA1) (h : wfCommit c) :
    ∃ s, marshalText c = .ok s ∧ parseCommit s = (c, none) ∧
      commitSHA1 hash c =
        some (hash (strB "commit " ++ (natToDec s.length ++ (0 :: s)))) := by
  obtain ⟨s, hm, hp⟩ := marshal_parse_round c h
  refine ⟨s, hm, hp, ?_⟩
  unfold commitSHA1
  rw [hm]
  unfold appendPrefix
  rw [show strB "commit " = strB "commit" ++ [32] from rfl]
  simp

/-- C1 witness: the amended round trip evaluated on a concrete commit with a
parent and a GPG signature, with a concrete hash function. -/
theorem claim_C1_witness :
    ∃ s, marshalText witCommitC1 = .ok s ∧ parseCommit s = (witCommitC1, none) ∧
      commitSHA1 (fun _ => zeroSHA1) witCommitC1 =
        some ((fun _ => zeroSHA1) (strB "commit " ++ (natToDec s.length ++ (0 :: s)))) :=
  claim_C1 witCommitC1 (fun _ => zeroSHA1) (by decide)

/-- C3: whenever negotiate returns a response, the acknowledgement section
parsed successfully and the response carries a packfile exactly when a
terminal statusless ACK was seen or the request had declared done
(have_more false); otherwise it carries only the acks. -/
theorem claim_C3 (serverCaps : CapList)
    (u : String → List Nat → Except CErr (List Frame))
    (req : FetchRequest) (resp : FetchResponse)
    (hok : negotiate serverCaps u req = .ok resp) :
    ∃ frames acks found rest,
      parseAcks [] frames = .ok (acks, found, rest) ∧
      finishNegotiate req.haveMore frames = .ok resp ∧
      resp.acks = acks ∧
      (resp.packfile ≠ none ↔ (found = true ∨ req.haveMore = false)) ∧
      (resp.packfile ≠ none → resp.packfile = some rest) := by
  unfold negotiate at hok
  match hsel : selectCaps serverCaps req.hasProgress with
  | .error e =>
    simp only [hsel] at hok
    exact Except.noConfusion hok
  | .ok useCaps =>
    simp only [hsel] at hok
    match hw : req.want with
    | [] =>
      simp only [hw] at hok
      exact Except.noConfusion hok
    | w0 :: ws =>
      simp only [hw] at hok
      match hu : u v1ExtraParams (buildCommandBuf useCaps w0 ws req.haves req.haveMore) with
      | .error e =>
        simp only [hu] at hok
        exact Except.noConfusion hok
      | .ok frames =>
        simp only [hu] at hok
        unfold finishNegotiate at hok
        match hp : parseAcks [] frames with
        | .error e =>
          simp only [hp] at hok
          exact Except.noConfusion hok
        | .ok (acks, found, rest) =>
          simp only [hp, Except.ok.injEq] at hok
          refine ⟨frames, acks, found, rest, hp, ?_, ?_, ?_, ?_⟩
          · unfold finishNegotiate
            simp only [hp]
            rw [hok]
          · rw [← hok]
          · rw [← hok]
            by_cases hf : found <;> by_cases hm : req.haveMore <;> simp [hf, hm]
          · rw [← hok]
            by_cases hf : found <;> by_cases hm : req.haveMore <;> simp [hf, hm]

/-- C3 witness: a NAK response to a done request carries a packfile. -/
theorem claim_C3_witness :
    ∃ frames acks found rest,
      parseAcks [] frames = .ok (acks, found, rest) ∧
      finishNegotiate reqDone.haveMore frames =
        .ok (FetchResponse.mk [] (some [])) ∧
      (FetchResponse.mk [] (some [])).acks = acks ∧
      ((FetchResponse.mk [] (some [])).packfile ≠ none ↔
        (found = true ∨ reqDone.haveMore = false)) ∧
      ((FetchResponse.mk [] (some [])).packfile ≠ none →
        (FetchResponse.mk [] (some [])).packfile = some rest) :=
  claim_C3 sb64Caps (fun _ _ => .ok [Frame.data nakLine]) reqDone
    (FetchResponse.mk [] (some [])) rfl

/-- Membership after a map-style capability insert. -/
theorem supports_insert (cl : CapList) (k v q : List Nat) :
    (cl.insert k v).supports q = true ↔ (q = k ∨ cl.supports q = true) := by
  unfold CapList.insert CapList.supports
  by_cases hex : cl.entries.any (fun kv => kv.1 == k)
  · rw [if_pos hex]
    simp only [List.any_map, List.any_eq_true, Function.comp]
    constructor
    · rintro ⟨kv, hmem, hq⟩
      by_cases hk : kv.1 == k
      · rw [if_pos hk] at hq
        simp only [beq_iff_eq] at hq
        exact Or.inl hq.symm
      · rw [if_neg hk] at hq
        exact Or.inr ⟨kv, hmem, hq⟩
    · rintro (hq | ⟨kv, hmem, hq⟩)
      · subst hq
        rw [List.any_eq_true] at hex
        obtain ⟨kv, hmem, hk⟩ := hex
        exact ⟨kv, hmem, by rw [if_pos hk]; simp⟩
      · by_cases hk : kv.1 == k
        · refine ⟨kv, hmem, ?_⟩
          rw [if_pos hk]
          simp only [beq_iff_eq] at hq hk ⊢
          rw [← hk, hq]
        · exact ⟨kv, hmem, by rw [if_neg hk]; exact hq⟩
  · rw [if_neg hex]
    simp only [List.any_append, List.any_cons, List.any_nil, Bool.or_eq_true,
      List.any_eq_true, beq_iff_eq, Bool.or_false]
    constructor
    · rintro (⟨kv, hm, hq⟩ | hk)
      · exact Or.inr ⟨kv, hm, hq⟩
      · exact Or.inl hk.symm
    · rintro (hq | ⟨kv, hm, hq⟩)
      · exact Or.inr hq.symm
      · exact Or.inl ⟨kv, hm, hq⟩

/-- Membership after capability intersection. -/
theorem supports_intersect (a b : CapList) (q : List Nat) :
    (a.intersect b).supports q = true ↔
      (a.supports q = true ∧ b.supports q = true) := by
  unfold CapList.intersect CapList.supports
  simp only [List.any_eq_true, List.mem_filter, beq_iff_eq]
  constructor
  · rintro ⟨kv, ⟨hmem, hfil⟩, hq⟩
    subst hq
    exact ⟨⟨kv, hmem, rfl⟩, hfil⟩
  · rintro ⟨⟨kv, hmem, hq⟩, hb⟩
    subst hq
    exact ⟨kv, ⟨hmem, hb⟩, rfl⟩

/-- Membership in the pre-side-band capability base of selectCaps. -/
theorem supports_base (hp : Bool) (q : List Nat) :
    ((if !hp then
        (CapList.mk [(multiAckCap, []), (ofsDeltaCap, [])] []).insert noProgressCap []
      else CapList.mk [(multiAckCap, []), (ofsDeltaCap, [])] []).supports q = true) ↔
      (q = multiAckCap ∨ q = ofsDeltaCap ∨ (q = noProgressCap ∧ hp = false)) := by
  have hbase : (CapList.mk [(multiAckCap, []), (ofsDeltaCap, [])] []).supports q = true ↔
      (q = multiAckCap ∨ q = ofsDeltaCap) := by
    unfold CapList.supports
    simp only [List.any_cons, List.any_nil, Bool.or_eq_true, beq_iff_eq, Bool.or_false]
    constructor
    · rintro (h | h) <;> [exact Or.inl h.symm; exact Or.inr h.symm]
    · rintro (h | h) <;> [exact Or.inl h.symm; exact Or.inr h.symm]
  cases hp with
  | true =>
    rw [if_neg (by simp : ¬((!true) = true)), hbase]
    simp
  | false =>
    rw [if_pos (by simp : (!false) = true), supports_insert, hbase]
    simp
    tauto

/-- C4: when the server offers neither side-band variant, negotiate fails with
the no-side-band error before any transport request (its result does not
depend on the transport); otherwise the selected capability set is exactly
the intersection of multi_ack and ofs-delta (plus no-progress exactly when no
progress sink is attached) with the server set, together with side-band-64k
when offered, else side-band. -/
theorem claim_C4 (serverCaps : CapList) (req : FetchRequest)
    (u1 u2 : String → List Nat → Except CErr (List Frame)) :
    (serverCaps.supports sideBand64KCap = false →
      serverCaps.supports sideBandCap = false →
      negotiate serverCaps u1 req = .error .noSideBand ∧
        negotiate serverCaps u1 req = negotiate serverCaps u2 req) ∧
    (∀ cl, selectCaps serverCaps req.hasProgress = .ok cl →
      ∀ q, cl.supports q = true ↔
        (((q = multiAckCap ∨ q = ofsDeltaCap ∨
            (q = noProgressCap ∧ req.hasProgress = false)) ∧
          serverCaps.supports q = true) ∨
          (q = sideBand64KCap ∧ serverCaps.supports sideBand64KCap = true) ∨
          (q = sideBandCap ∧ serverCaps.supports sideBand64KCap = false ∧
            serverCaps.supports sideBandCap = true))) := by
  constructor
  · intro h64 hsb
    have hsel : selectCaps serverCaps req.hasProgress = .error .noSideBand := by
      unfold selectCaps
      rw [if_neg (by simp [h64]), if_neg (by simp [hsb])]
    constructor
    · unfold negotiate
      simp only [hsel]
    · unfold negotiate
      simp only [hsel]
  · intro cl hsel q
    unfold selectCaps at hsel
    by_cases h64 : serverCaps.supports sideBand64KCap = true
    · rw [if_pos h64, Except.ok.injEq] at hsel
      subst hsel
      rw [supports_insert, supports_intersect, supports_base]
      constructor
      · rintro (hq | ⟨hbase, hsrv⟩)
        · exact Or.inr (Or.inl ⟨hq, h64⟩)
        · exact Or.inl ⟨hbase, hsrv⟩
      · rintro (⟨hbase, hsrv⟩ | ⟨hq, _⟩ | ⟨_, hcon, _⟩)
        · exact Or.inr ⟨hbase, hsrv⟩
        · exact Or.inl hq
        · rw [h64] at hcon
          cases hcon
    · have h64f : serverCaps.supports sideBand64KCap = false := by
        cases hx : serverCaps.supports sideBand64KCap
        · rfl
        · exact absurd hx h64
      rw [if_neg h64] at hsel
      by_cases hsb : serverCaps.supports sideBandCap = true
      · rw [if_pos hsb, Except.ok.injEq] at hsel
        subst hsel
        rw [supports_insert, supports_intersect, supports_base]
        constructor
        · rintro (hq | ⟨hbase, hsrv⟩)
          · exact Or.inr (Or.inr ⟨hq, h64f, hsb⟩)
          · exact Or.inl ⟨hbase, hsrv⟩
        · rintro (⟨hbase, hsrv⟩ | ⟨hq, hcon⟩ | ⟨hq, _, _⟩)
          · exact Or.inr ⟨hbase, hsrv⟩
          · rw [h64f] at hcon
            cases hcon
          · exact Or.inl hq
      · rw [if_neg hsb] at hsel
        exact Except.noConfusion hsel

/-- C4 witness: the no-side-band failure and the selected set at a concrete
side-band-64k server. -/
theorem claim_C4_witness :
    (negotiate noSBCaps (fun _ _ => .ok []) reqS3 = .error .noSideBand ∧
      negotiate noSBCaps (fun _ _ => .ok []) reqS3 =
        negotiate noSBCaps (fun _ _ => .error .transport) reqS3) ∧
    (∀ cl, selectCaps sb64Caps reqS3.hasProgress = .ok cl →
      ∀ q, cl.supports q = true ↔
        (((q = multiAckCap ∨ q = ofsDeltaCap ∨
            (q = noProgressCap ∧ reqS3.hasProgress = false)) ∧
          sb64Caps.supports q = true) ∨
          (q = sideBand64KCap ∧ sb64Caps.supports sideBand64KCap = true) ∨
          (q = sideBandCap ∧ sb64Caps.supports sideBand64KCap = false ∧
            sb64Caps.supports sideBandCap = true))) :=
  ⟨(claim_C4 noSBCaps reqS3 (fun _ _ => .ok [])
      (fun _ _ => .error .transport)).1 (by decide) (by decide),
    (claim_C4 sb64Caps reqS3 (fun _ _ => .ok [])
      (fun _ _ => .ok [])).2⟩

/-- A fold of data-frame appends encodes the mapped frame list. -/
theorem foldl_appendData (f : SHA1 → List Nat) (l : List SHA1) (b : List Nat) :
    l.foldl (fun acc w => appendData acc (f w)) b =
      b ++ pktEncodeList (l.map (fun w => Frame.data (f w))) := by
  induction l generalizing b with
  | nil => simp [pktEncodeList]
  | cons x xs ih =>
    simp only [List.foldl_cons, List.map_cons, pktEncodeList, List.flatMap_cons]
    rw [ih]
    simp [appendData, encodeFrame, pktEncodeList, List.append_assoc]

/-- C5: the request buffer negotiate posts is the pkt-line encoding of exactly
the claimed frame sequence (caps only on the first want line, wants, flush,
haves, then done or flush by have_more), and negotiate performs exactly one
transport call with that buffer and the version=1 extra parameter. -/
theorem claim_C5 (serverCaps useCaps : CapList) (req : FetchRequest)
    (w0 : SHA1) (ws : List SHA1)
    (u : String → List Nat → Except CErr (List Frame))
    (hw : req.want = w0 :: ws)
    (hsel : selectCaps serverCaps req.hasProgress = .ok useCaps) :
    buildCommandBuf useCaps w0 ws req.haves req.haveMore =
      pktEncodeList
        (Frame.data (strB "want " ++ hexEncode w0 ++ 32 ::
            (capsRender useCaps.entries ++ [10])) ::
          (ws.map (fun w => Frame.data (strB "want " ++ hexEncode w ++ [10])) ++
            ([Frame.flush] ++
              (req.haves.map
                (fun hv => Frame.data (strB "have " ++ hexEncode hv ++ [10])) ++
                [if req.haveMore then Frame.flush
                  else Frame.data (strB "done")])))) ∧
    negotiate serverCaps u req =
      (match u v1ExtraParams (buildCommandBuf useCaps w0 ws req.haves req.haveMore) with
       | .error e => .error e
       | .ok frames => finishNegotiate req.haveMore frames) := by
  constructor
  · unfold buildCommandBuf
    simp only [foldl_appendData]
    by_cases hm : req.haveMore <;>
      simp [hm, appendData, appendFlush, encodeFrame, pktEncodeList,
        List.append_assoc]
  · unfold negotiate
    simp only [hsel, hw]

/-- C5 witness: the wire layout at a concrete request with an extra want and
a have, at the capability set selectCaps actually returns for the concrete
server. -/
theorem claim_C5_witness :
    (buildCommandBuf (CapList.mk [(multiAckCap, []), (sideBand64KCap, [])] [])
        idX [idY] (FetchRequest.mk [idX, idY] [idY] true false).haves
        (FetchRequest.mk [idX, idY] [idY] true false).haveMore =
      pktEncodeList
        (Frame.data (strB "want " ++ hexEncode idX ++ 32 ::
            (capsRender (CapList.mk [(multiAckCap, []), (sideBand64KCap, [])]
              []).entries ++ [10])) ::
          ([idY].map (fun w => Frame.data (strB "want " ++ hexEncode w ++ [10])) ++
            ([Frame.flush] ++
              ((FetchRequest.mk [idX, idY] [idY] true false).haves.map
                (fun hv => Frame.data (strB "have " ++ hexEncode hv ++ [10])) ++
                [if (FetchRequest.mk [idX, idY] [idY] true false).haveMore
                  then Frame.flush else Frame.data (strB "done")]))))) ∧
    negotiate sb64Caps (fun _ _ => .ok ackContinueFrames)
        (FetchRequest.mk [idX, idY] [idY] true false) =
      (match (fun (_ : String) (_ : List Nat) =>
          (.ok ackContinueFrames : Except CErr (List Frame))) v1ExtraParams
          (buildCommandBuf (CapList.mk [(multiAckCap, []), (sideBand64KCap, [])] [])
            idX [idY] (FetchRequest.mk [idX, idY] [idY] true false).haves
            (FetchRequest.mk [idX, idY] [idY] true false).haveMore) with
       | .error e => .error e
       | .ok frames =>
          finishNegotiate (FetchRequest.mk [idX, idY] [idY] true false).haveMore
            frames) :=
  claim_C5 sb64Caps (CapList.mk [(multiAckCap, []), (sideBand64KCap, [])] [])
    (FetchRequest.mk [idX, idY] [idY] true false) idX [idY]
    (fun _ _ => .ok ackContinueFrames) rfl (by decide)

/-- Parsing the hex form of a 20-byte id recovers the id. -/
theorem sha1FromHex_encode (id : SHA1) (h : isBytes20 id) :
    sha1FromHex (hexEncode id) = some id := by
  unfold sha1FromHex
  rw [if_pos (by rw [hexEncode_length, h.1])]
  rw [hexDecodeAcc_encode id h.2]

/-- The no-refs advertisement line does not shed a trailing LF. -/
theorem trimLF_noRefsLine (id : SHA1) (capBytes : List Nat)
    (h10 : capBytes.getLast? ≠ some 10) :
    trimLF (noRefsLine id capBytes) = noRefsLine id capBytes := by
  unfold trimLF
  rw [if_neg]
  intro hc
  by_cases hcb : capBytes = []
  · subst hcb
    have hlast : (noRefsLine id []).getLast? = some 0 := by
      rw [show noRefsLine id [] =
        (hexEncode id ++ [32] ++ strB "capabilities^" ++ [123, 125]) ++ [0] from by
          unfold noRefsLine; simp]
      simp
      decide
    rw [hlast] at hc
    exact absurd hc (by decide)
  · rw [show noRefsLine id capBytes =
      (hexEncode id ++ [32] ++ strB "capabilities^" ++ [123, 125] ++ [0]) ++ capBytes
      from by unfold noRefsLine; simp] at hc
    rw [List.getLast?_append_of_ne_nil _ hcb] at hc
    exact h10 hc

/-- The no-refs advertisement line is not the version marker. -/
theorem noRefsLine_ne_version (id : SHA1) (capBytes : List Nat)
    (hid : isBytes20 id) : noRefsLine id capBytes ≠ strB "version 1" := by
  intro hc
  have hlen := congrArg List.length hc
  unfold noRefsLine at hlen
  simp only [List.length_append, hexEncode_length, hid.1] at hlen
  have h9 : (strB "version 1").length = 9 := rfl
  rw [h9] at hlen
  have h13 : (strB "capabilities^").length = 13 := rfl
  rw [h13] at hlen
  simp at hlen
  omega

/-- Parsing the no-refs first line: a non-zero id is malformed; the zero id
advertises no refs and the parsed capability set. -/
theorem parseFirstRefV1_noRefs (id : SHA1) (hid : isBytes20 id)
    (capBytes : List Nat) (cl : CapList)
    (hcb : parseCapTokensAux emptyCaps (fieldsWS capBytes) = .ok cl) :
    parseFirstRefV1 (noRefsLine id capBytes) =
      (if id ≠ zeroSHA1 then .error .nonZeroNoRefs else .ok (none, cl)) := by
  have hhex0 : (0 : Nat) ∉ hexEncode id := by
    intro hc
    rcases hexEncode_mem id hid.2 0 hc with h | h <;> omega
  have hhex32 : (32 : Nat) ∉ hexEncode id := by
    intro hc
    rcases hexEncode_mem id hid.2 32 hc with h | h <;> omega
  have hA : noRefsLine id capBytes =
      (hexEncode id ++ 32 :: (strB "capabilities^" ++ [123, 125])) ++ 0 :: capBytes := by
    unfold noRefsLine
    simp
  have hIdx0 : idxOf 0 (noRefsLine id capBytes) =
      some (hexEncode id ++ 32 :: (strB "capabilities^" ++ [123, 125])).length := by
    rw [hA]
    apply idxOf_append
    intro hc
    rcases List.mem_append.mp hc with hc | hc
    · exact hhex0 hc
    · rcases List.mem_cons.mp hc with hc | hc
      · omega
      · revert hc
        decide
  have hTake : (noRefsLine id capBytes).take
      (hexEncode id ++ 32 :: (strB "capabilities^" ++ [123, 125])).length =
      hexEncode id ++ 32 :: (strB "capabilities^" ++ [123, 125]) := by
    rw [hA]
    exact List.take_left _ _
  have hIdx32 : idxOf 32 (hexEncode id ++ 32 :: (strB "capabilities^" ++ [123, 125])) =
      some (hexEncode id).length :=
    idxOf_append 32 _ _ hhex32
  have hTakeId : (noRefsLine id capBytes).take (hexEncode id).length =
      hexEncode id := by
    rw [show noRefsLine id capBytes = hexEncode id ++
      ([32] ++ strB "capabilities^" ++ [123, 125] ++ [0] ++ capBytes) from by
        unfold noRefsLine; simp]
    exact List.take_left _ _
  have hName : (hexEncode id ++ 32 :: (strB "capabilities^" ++ [123, 125])).drop
      ((hexEncode id).length + 1) = strB "capabilities^" ++ [123, 125] :=
    drop_append_cons _ _ _
  have hCaps : (noRefsLine id capBytes).drop
      ((hexEncode id ++ 32 :: (strB "capabilities^" ++ [123, 125])).length + 1) =
      capBytes := by
    rw [hA]
    exact drop_append_cons _ _ _
  unfold parseFirstRefV1
  simp only [hIdx0, hTake, hIdx32, hTakeId, sha1FromHex_encode id hid, hName,
    hCaps, hcb]
  simp

/-- C6: a capabilities-only first ref line must carry the all-zero id
(otherwise the advertisement is malformed), the reader then requires exactly a
flush frame, and listing refs of such an advertisement yields the empty list
with no error. -/
theorem claim_C6 (id : SHA1) (hid : isBytes20 id) (capBytes : List Nat)
    (cl : CapList)
    (hcb : parseCapTokensAux emptyCaps (fieldsWS capBytes) = .ok cl)
    (h10 : capBytes.getLast? ≠ some 10) :
    (id ≠ zeroSHA1 →
      parseFirstRefV1 (noRefsLine id capBytes) = .error .nonZeroNoRefs) ∧
    (id = zeroSHA1 →
      parseFirstRefV1 (noRefsLine id capBytes) = .ok (none, cl) ∧
      readFirstRefV1 [Frame.data (noRefsLine id capBytes)] = .error .eof ∧
      (∀ f2 fs, f2 ≠ Frame.flush →
        readFirstRefV1 (Frame.data (noRefsLine id capBytes) :: f2 :: fs) =
          .error .expectedFlush) ∧
      (∀ rest,
        readFirstRefV1 (Frame.data (noRefsLine id capBytes) :: Frame.flush :: rest) =
          .ok (none, cl, rest)) ∧
      listRefs (newFetchV1 [Frame.data (noRefsLine id capBytes), Frame.flush]) [] =
        ([], none)) := by
  have hkey := parseFirstRefV1_noRefs id hid capBytes cl hcb
  have htrim := trimLF_noRefsLine id capBytes h10
  have hver := noRefsLine_ne_version id capBytes hid
  constructor
  · intro hne
    rw [hkey, if_pos hne]
  · intro hzero
    have hok : parseFirstRefV1 (noRefsLine id capBytes) = .ok (none, cl) := by
      rw [hkey, if_neg (by simp [hzero])]
    have hread : ∀ rest : List Frame,
        readFirstRefV1 (Frame.data (noRefsLine id capBytes) :: rest) =
          (match rest with
           | Frame.flush :: rest2 => .ok (none, cl, rest2)
           | [] => .error .eof
           | _ :: _ => .error .expectedFlush) := by
      intro rest
      unfold readFirstRefV1
      simp only [currentText, htrim, if_neg hver, hok]
      simp
    refine ⟨hok, ?_, ?_, ?_, ?_⟩
    · rw [hread []]
    · intro f2 fs hne2
      rw [hread (f2 :: fs)]
      cases f2 with
      | flush => exact absurd rfl hne2
      | delim => rfl
      | responseEnd => rfl
      | data p => rfl
    · intro rest
      rw [hread (Frame.flush :: rest)]
    · unfold newFetchV1
      rw [hread [Frame.flush]]
      unfold listRefs
      simp

/-- C6 witness: the zero-id capabilities advertisement with a concrete
capability list, and a non-zero id rejected. -/
theorem claim_C6_witness :
    (idX ≠ zeroSHA1 →
      parseFirstRefV1 (noRefsLine idX (strB "multi_ack")) = .error .nonZeroNoRefs) ∧
    (idX = zeroSHA1 →
      parseFirstRefV1 (noRefsLine idX (strB "multi_ack")) =
        .ok (none, CapList.mk [(multiAckCap, [])] []) ∧
      readFirstRefV1 [Frame.data (noRefsLine idX (strB "multi_ack"))] =
        .error .eof ∧
      (∀ f2 fs, f2 ≠ Frame.flush →
        readFirstRefV1 (Frame.data (noRefsLine idX (strB "multi_ack")) :: f2 :: fs) =
          .error .expectedFlush) ∧
      (∀ rest,
        readFirstRefV1
          (Frame.data (noRefsLine idX (strB "multi_ack")) :: Frame.flush :: rest) =
          .ok (none, CapList.mk [(multiAckCap, [])] [], rest)) ∧
      listRefs
        (newFetchV1 [Frame.data (noRefsLine idX (strB "multi_ack")), Frame.flush])
        [] = ([], none)) :=
  claim_C6 idX (by decide) (strB "multi_ack") (CapList.mk [(multiAckCap, [])] [])
    (by decide) (by decide)

/-- C7 counterexample: a ref matching two of the given prefixes is returned
twice, not exactly once; and the set-union law fails when one prefix list is
empty (the empty list means all refs, not no refs). -/
theorem claim_C7_cex :
    (listRefs st7 [strB "a", strB "ab"]).1.count refA7 = 2 ∧
      refA7 ∉ (listRefs st7 ([] ++ [strB "x"])).1 ∧
      refA7 ∈ (listRefs st7 []).1 := by decide

/-- C7 (amended): an empty prefix list returns all refs in server order; a
nonempty prefix list returns, in server order, one copy of each ref per
prefix matching its name (so a ref matching several prefixes appears several
times), whose membership is exactly the refs matched by some prefix; and the
set-union law holds for nonempty prefix lists. -/
theorem claim_C7 (st : FetchV1State) (hpend : st.pending = none)
    (herr : st.refsError = none) (P Q : List (List Nat)) (r : Ref) :
    (listRefs st [] = (st.refs, none)) ∧
    (P ≠ [] → (listRefs st P).1 =
      st.refs.flatMap (fun r2 =>
        (P.filter (fun p => p.isPrefixOf r2.name)).map (fun _ => r2))) ∧
    (P ≠ [] → (r ∈ (listRefs st P).1 ↔
      r ∈ st.refs ∧ ∃ p ∈ P, p.isPrefixOf r.name = true)) ∧
    (P ≠ [] → Q ≠ [] → (r ∈ (listRefs st (P ++ Q)).1 ↔
      (r ∈ (listRefs st P).1 ∨ r ∈ (listRefs st Q).1))) := by
  have hbase : ∀ P2 : List (List Nat), ¬P2.isEmpty = true →
      listRefs st P2 = (st.refs.flatMap (fun r2 =>
        (P2.filter (fun p => p.isPrefixOf r2.name)).map (fun _ => r2)), none) := by
    intro P2 hne
    unfold listRefs
    simp only [hpend, herr]
    rw [if_neg hne]
  have hmem : ∀ (P2 : List (List Nat)), P2 ≠ [] → ∀ r2 : Ref,
      (r2 ∈ (listRefs st P2).1 ↔
        r2 ∈ st.refs ∧ ∃ p ∈ P2, p.isPrefixOf r2.name = true) := by
    intro P2 hne r2
    rw [hbase P2 (by simp [hne])]
    simp only [List.mem_flatMap, List.mem_map, List.mem_filter]
    constructor
    · rintro ⟨r3, hr3, p, ⟨hp, hpre⟩, heq⟩
      subst heq
      exact ⟨hr3, p, hp, hpre⟩
    · rintro ⟨hr2, p, hp, hpre⟩
      exact ⟨r2, hr2, p, ⟨hp, hpre⟩, rfl⟩
  refine ⟨?_, ?_, fun hP => hmem P hP r, ?_⟩
  · unfold listRefs
    simp only [hpend, herr]
    rfl
  · intro hP
    rw [hbase P (by simp [hP])]
  · intro hP hQ
    rw [hmem (P ++ Q) (by simp [hP]) r, hmem P hP r, hmem Q hQ r]
    simp only [List.mem_append]
    constructor
    · rintro ⟨hr, p, hp | hp, hpre⟩
      · exact Or.inl ⟨hr, p, hp, hpre⟩
      · exact Or.inr ⟨hr, p, hp, hpre⟩
    · rintro (⟨hr, p, hp, hpre⟩ | ⟨hr, p, hp, hpre⟩)
      · exact ⟨hr, p, Or.inl hp, hpre⟩
      · exact ⟨hr, p, Or.inr hp, hpre⟩

/-- C7 witness: the amended filtering law at a concrete drained state. -/
theorem claim_C7_witness :
    (listRefs st7 [] = (st7.refs, none)) ∧
    ([strB "a"] ≠ ([] : List (List Nat)) → (listRefs st7 [strB "a"]).1 =
      st7.refs.flatMap (fun r2 =>
        (([strB "a"]).filter (fun p => p.isPrefixOf r2.name)).map (fun _ => r2))) ∧
    ([strB "a"] ≠ ([] : List (List Nat)) →
      (refA7 ∈ (listRefs st7 [strB "a"]).1 ↔
        refA7 ∈ st7.refs ∧ ∃ p ∈ [strB "a"], p.isPrefixOf refA7.name = true)) ∧
    ([strB "a"] ≠ ([] : List (List Nat)) → [strB "b"] ≠ ([] : List (List Nat)) →
      (refA7 ∈ (listRefs st7 ([strB "a"] ++ [strB "b"])).1 ↔
        (refA7 ∈ (listRefs st7 [strB "a"]).1 ∨
          refA7 ∈ (listRefs st7 [strB "b"]).1))) :=
  claim_C7 st7 rfl rfl [strB "a"] [strB "b"] refA7

end GG
